import Mathlib

/-!
Verification of the matching-game state engine (a Rust crate) against its
specification.  The definitions below are a shallow embedding of the crate:

* `src/tile.rs`, `src/coordinate.rs`, `src/consts.rs`: enumerations and
  constants,
* `src/play.rs`: `partition_by_coordinates`, `possible_plays`, `check_line`,
  `batch_continuous_increasing_range` / `batch_continuous_decreasing_range`,
* `src/first_state.rs` and `src/first_state/first_play.rs`: `FirstState`,
  `FirstState::check_plays`, `FirstState::find_holes`, `FirstState::first_play`,
* `src/next_state.rs`, `src/next_state/next_play.rs`,
  `src/next_state/next_exchange.rs`: `NextState`, `NextState::has_ended`,
  `NextState::partition_connected`, `NextState::find_lines`,
  `NextState::check_plays`, `NextState::next_play`, `NextState::check_exchanges`,
  `NextState::next_exchange`, and `LastState`.

Representation choices: Rust `usize` indexes and lengths become `Nat`, `isize`
coordinates become `Int` (no overflow is reachable because the crate asserts
`isize::MAX / COORDINATE_LIMIT >= TILE_LIMIT`), a `BiBTreeMap<usize, Coordinate>`
(`Plays`) becomes a list of pairs that the map iterates in ascending key order
(the bimap invariants - distinct keys, distinct values - appear as explicit
well-formedness hypotheses where a theorem needs them), `BTreeSet`/`HashSet`
become `Finset`, a `HashMap<Coordinate, Tile>` (`Board`) becomes an association
list with distinct keys, and the thread rng used by `next_exchange` becomes an
explicit stream of sampled numbers.
-/

namespace MatchingGame

/-- Embeds `Color` from `src/tile.rs`. -/
inductive Color
  | red
  | orange
  | yellow
  | green
  | blue
  | purple
deriving DecidableEq, Repr

/-- Embeds `Shape` from `src/tile.rs`. -/
inductive Shape
  | circle
  | clover
  | diamond
  | square
  | starburst
  | x
deriving DecidableEq, Repr

/-- Embeds `Color::COLORS_LEN` (6). -/
def COLORS_LEN : Nat := 6

/-- Embeds `Shape::SHAPES_LEN` (6). -/
def SHAPES_LEN : Nat := 6

/-- Embeds `TILES_LEN = Color::COLORS_LEN * Shape::SHAPES_LEN` from `src/tile.rs`. -/
def TILES_LEN : Nat := COLORS_LEN * SHAPES_LEN

/-- Embeds `FULL_MATCH_BONUS` from `src/consts.rs`. -/
def FULL_MATCH_BONUS : Nat := 6

/-- Embeds `LAST_PLAY_BONUS` from `src/consts.rs`. -/
def LAST_PLAY_BONUS : Nat := 6

/-- Embeds `COORDINATE_LIMIT` from `src/consts.rs` (default value 10000). -/
def COORDINATE_LIMIT : Int := 10000

/-- Embeds `HOLES_LIMIT` from `src/consts.rs` (default value 100).  The hole
search is stated over an arbitrary limit because the constant is a compile-time
configuration knob; this is the default. -/
def HOLES_LIMIT : Nat := 100

/-- Embeds `Tile = (Color, Shape)` from `src/tile.rs`. -/
abbrev Tile := Color × Shape

/-- Embeds `Coordinate = (isize, isize)` from `src/coordinate.rs`. -/
abbrev Coordinate := Int × Int

/-- Embeds `Plays = BiBTreeMap<usize, Coordinate>` from `src/types.rs` as the
list of its entries in ascending key order. -/
abbrev Plays := List (Nat × Coordinate)

/-- Embeds `Exchanges = BTreeSet<usize>` from `src/types.rs` as the ascending
list of its elements. -/
abbrev Exchanges := List Nat

/-- Embeds `Bag = Vec<Tile>` from `src/types.rs`. -/
abbrev Bag := List Tile

/-- Embeds `Board = HashMap<Coordinate, Tile>` from `src/types.rs` as an
association list; the map invariant (distinct keys) is carried as a hypothesis
where a theorem needs it. -/
abbrev Board := List (Coordinate × Tile)

/-- Embeds `Hand = SmallVec<[Tile; HAND_CAPACITY]>` from `src/types.rs`. -/
abbrev Hand := List Tile

/-- Default tile standing in for the value a Rust panic would never yield:
`hand.remove(i)` and `hand[i]` are only reached with indexes already validated
to be in bounds. -/
def defaultTile : Tile := (Color.red, Shape.circle)

/-- The bimap invariant of `Plays`: keys strictly ascending (hence distinct)
and coordinates distinct. -/
def PlaysWF (plays : Plays) : Prop :=
  List.Pairwise (· < ·) (plays.map Prod.fst) ∧ (plays.map Prod.snd).Nodup

/-- The set invariant of `Exchanges`: strictly ascending elements. -/
def ExchangesWF (exchanges : Exchanges) : Prop :=
  List.Pairwise (· < ·) exchanges

instance : DecidablePred PlaysWF := fun p => by
  unfold PlaysWF
  infer_instance

instance : DecidablePred ExchangesWF := fun ex => by
  unfold ExchangesWF
  infer_instance

/-- Embeds the in-bounds test of `partition_by_coordinates` from `src/play.rs`:
the source splits the bimap with three `right_range` queries whose union is
exactly the coordinates with `|x| < COORDINATE_LIMIT` and
`|y| < COORDINATE_LIMIT`. -/
def inCoordinateLimit (c : Coordinate) : Bool :=
  -COORDINATE_LIMIT < c.1 && c.1 < COORDINATE_LIMIT &&
    -COORDINATE_LIMIT < c.2 && c.2 < COORDINATE_LIMIT

/-- Embeds `partition_by_coordinates` from `src/play.rs`: first component the
plays inside the coordinate limit, second the plays on or outside it. -/
def partition_by_coordinates (plays : Plays) : Plays × Plays :=
  (plays.filter (fun e => inCoordinateLimit e.2),
    plays.filter (fun e => !inCoordinateLimit e.2))

/-- The loop of `Itertools::unique_by` keyed on the tile value: keep an entry
whose tile has not been seen yet and remember it. -/
def uniqueByTileGo (seen : List Tile) : List (Nat × Tile) → List (Nat × Tile)
  | [] => []
  | e :: es =>
    if e.2 ∈ seen then uniqueByTileGo seen es
    else e :: uniqueByTileGo (e.2 :: seen) es

/-- Embeds the `unique_by(|&(_, tile)| tile)` step of `possible_plays` from
`src/play.rs`: keep the first occurrence of each tile value. -/
def uniqueByTile (l : List (Nat × Tile)) : List (Nat × Tile) :=
  uniqueByTileGo [] l

/-- Embeds the combination filter of `possible_plays` from `src/play.rs`:
an empty or singleton combination passes; otherwise all tiles must share the
first tile's color, or failing that its shape. -/
def isMatchingCombo : List (Nat × Tile) → Bool
  | [] => true
  | [_] => true
  | (_, t1) :: (_, t2) :: rest =>
    if t1.1 = t2.1 then rest.all (fun e => e.2.1 = t1.1)
    else if t1.2 = t2.2 then rest.all (fun e => e.2.2 = t1.2)
    else false

/-- Embeds `possible_plays` from `src/play.rs`: all length-`k` combinations of
distinct-valued hand tiles that are internally color-uniform or shape-uniform,
as the set of their index sets. -/
def possible_plays (hand : Hand) (k : Nat) : Finset (Finset Nat) :=
  ((((uniqueByTile hand.enum).sublistsLen k).filter
      (fun combo => isMatchingCombo combo)).map
    (fun combo => (combo.map Prod.fst).toFinset)).toFinset

/-- The set of tile values occurring in a line (`check_line` groups the line
entries by tile in the `duplicates` map). -/
def lineTiles (line : Board) : Finset Tile :=
  (line.map Prod.snd).toFinset

/-- The set of colors occurring in a line. -/
def lineColors (line : Board) : Finset Color :=
  (line.map (fun e => e.2.1)).toFinset

/-- The set of shapes occurring in a line. -/
def lineShapes (line : Board) : Finset Shape :=
  (line.map (fun e => e.2.2)).toFinset

/-- The group of coordinates of a line holding a given tile value
(an entry of the `duplicates` grouping built by `check_line`). -/
def tileGroup (line : Board) (t : Tile) : Finset Coordinate :=
  ((line.filter (fun e => e.2 = t)).map Prod.fst).toFinset

/-- The group of coordinates of a line holding a given color
(an entry of the `matching_colors` grouping built by `check_line`). -/
def colorGroup (line : Board) (c : Color) : Finset Coordinate :=
  ((line.filter (fun e => e.2.1 = c)).map Prod.fst).toFinset

/-- The group of coordinates of a line holding a given shape
(an entry of the `matching_shapes` grouping built by `check_line`). -/
def shapeGroup (line : Board) (s : Shape) : Finset Coordinate :=
  ((line.filter (fun e => e.2.2 = s)).map Prod.fst).toFinset

/-- Embeds the duplicate filter of `check_line` from `src/play.rs`: the tile
groups holding more than one coordinate. -/
def dup_groups (line : Board) : Finset (Finset Coordinate) :=
  ((lineTiles line).filter (fun t => 1 < (tileGroup line t).card)).image
    (fun t => tileGroup line t)

/-- Embeds the `matching_colors` subset filter of `check_line` from
`src/play.rs`: color groups that are not a subset of any shape group. -/
def matching_colors (line : Board) : Finset (Finset Coordinate) :=
  ((lineColors line).filter
      (fun c => ¬ ∃ s ∈ lineShapes line, colorGroup line c ⊆ shapeGroup line s)).image
    (fun c => colorGroup line c)

/-- Embeds the `matching_shapes` subset filter of `check_line` from
`src/play.rs`: shape groups that are not a subset of any surviving color
group. -/
def matching_shapes (line : Board) : Finset (Finset Coordinate) :=
  ((lineShapes line).filter
      (fun s => ¬ ∃ g ∈ matching_colors line, shapeGroup line s ⊆ g)).image
    (fun s => shapeGroup line s)

/-- Embeds `check_line` from `src/play.rs`.  The error value pairs the
duplicate groups with the multiple-matching groups. -/
def check_line (line : Board) :
    Except (Finset (Finset Coordinate) × Finset (Finset Coordinate)) Nat :=
  let len := line.length
  let duplicates := dup_groups line
  let mc := matching_colors line
  let ms := matching_shapes line
  if 1 < mc.card + ms.card then .error (duplicates, mc ∪ ms)
  else if duplicates ≠ ∅ then .error (duplicates, ∅)
  else
    -- is_color_line = !matching_shapes.is_empty()
    if (ms ≠ ∅ ∧ len = COLORS_LEN) ∨ len = SHAPES_LEN then
      .ok (len + FULL_MATCH_BONUS)
    else .ok len

/-- Embeds the repeated application of `batch_continuous_increasing_range` from
`src/play.rs` through `Itertools::batching`: splits a list into the maximal
runs of consecutively increasing integers, each run reported as
`(first, last)`. -/
def batchIncreasingRanges : List Int → List (Int × Int)
  | [] => []
  | x :: xs =>
    match batchIncreasingRanges xs with
    | [] => [(x, x)]
    | (a, b) :: rest => if a = x + 1 then (x, b) :: rest else (x, x) :: (a, b) :: rest

/-- Embeds the repeated application of `batch_continuous_decreasing_range` from
`src/play.rs` through `Itertools::batching`: splits a list into the maximal
runs of consecutively decreasing integers, each run reported as
`(last, first)`, i.e. smaller endpoint first. -/
def batchDecreasingRanges : List Int → List (Int × Int)
  | [] => []
  | x :: xs =>
    match batchDecreasingRanges xs with
    | [] => [(x, x)]
    | (a, b) :: rest => if b = x - 1 then (a, x) :: rest else (x, x) :: (a, b) :: rest

/-- The closed integer interval `lo..=hi` as an ascending list. -/
def intRange (lo hi : Int) : List Int :=
  (List.range (hi + 1 - lo).toNat).map (fun n => lo + Int.ofNat n)

/-- The candidate missing points scanned upward from the nearest-origin
coordinate: the points of `mid+1..=max` that are not occupied, truncated at
`(limit + 1) / 2` points (the `take` in `find_holes` from
`src/first_state/first_play.rs` and in `NextState::check_plays`). -/
def holePointsIncreasing (limit : Nat) (occupied : Int → Bool) (mid mx : Int) :
    List Int :=
  ((intRange (mid + 1) mx).filter (fun v => !occupied v)).take ((limit + 1) / 2)

/-- The candidate missing points scanned downward from the nearest-origin
coordinate: the points of `min..=mid-1` in descending order that are not
occupied, truncated at `(limit + limit % 2) / 2` points. -/
def holePointsDecreasing (limit : Nat) (occupied : Int → Bool) (mn mid : Int) :
    List Int :=
  ((intRange mn (mid - 1)).reverse.filter (fun v => !occupied v)).take
    ((limit + limit % 2) / 2)

/-- Embeds the hole search shared by `FirstState::find_holes`
(`src/first_state/first_play.rs`) and the inline hole computation of
`NextState::check_plays` (`src/next_state/next_play.rs`); the two sites differ
only in the occupancy test, passed here as `occupied`, and in the constant
`HOLES_LIMIT`, passed here as `limit` because it is a compile-time
configuration knob.  Returns `none` when the plays are on no single row or
column. -/
def find_holes (limit : Nat) (occupied : Coordinate → Bool)
    (bounds : Int × Int × Int × Int) (mid : Coordinate) :
    Option (Finset (Coordinate × Coordinate)) :=
  let (minX, minY, maxX, maxY) := bounds
  let (midX, midY) := mid
  if minX = maxX then
    let increasing :=
      (batchIncreasingRanges
          (holePointsIncreasing limit (fun y => occupied (minX, y)) midY maxY)).map
        (fun r => ((minX, r.1), (minX, r.2)))
    let decreasing :=
      (batchDecreasingRanges
          (holePointsDecreasing limit (fun y => occupied (minX, y)) minY midY)).map
        (fun r => ((minX, r.1), (minX, r.2)))
    some (increasing ++ decreasing).toFinset
  else if minY = maxY then
    let increasing :=
      (batchIncreasingRanges
          (holePointsIncreasing limit (fun x => occupied (x, minY)) midX maxX)).map
        (fun r => ((r.1, minY), (r.2, minY)))
    let decreasing :=
      (batchDecreasingRanges
          (holePointsDecreasing limit (fun x => occupied (x, minY)) minX midX)).map
        (fun r => ((r.1, minY), (r.2, minY)))
    some (increasing ++ decreasing).toFinset
  else none

/-- Embeds `find_component_minimums_and_maximums` from `src/coordinate.rs`:
the bounds `(min_x, min_y, max_x, max_y)` of a list of coordinates, `none` for
the empty list. -/
def find_component_minimums_and_maximums (cs : List Coordinate) :
    Option (Int × Int × Int × Int) :=
  match cs with
  | [] => none
  | (x, y) :: rest =>
    some (rest.foldl
      (fun acc c => (min acc.1 c.1, min acc.2.1 c.2, max acc.2.2.1 c.1, max acc.2.2.2 c.2))
      (x, y, x, y))

/-- The squared distance from the origin.  The source compares `f32` square
roots (`((x as f32).powi(2) + (y as f32).powi(2)).sqrt()`); `f32` rounding can
collapse distinct distances — at `(9999, -2)` and `(9999, 0)` both square
roots compute to exactly `9999.0f32` — so the source's strict `<` then keeps
the first-iterated coordinate even when a later one is strictly nearer.  The
exact integer comparison used here is an idealisation that always picks a
true minimum; no theorem in this file relies on this minimising property. -/
def distanceSq (c : Coordinate) : Int := c.1 * c.1 + c.2 * c.2

/-- Embeds the selection fold of `find_coordinate_by_minimum_distance` from
`src/coordinate.rs`, `none` for the empty list.  Two idealisations apply: the
source's `f32` square-root comparison is replaced by the exact squared
distance (see `distanceSq`), and the call sites feed the stored key-ordered
plays where the source iterates `right_values()` in coordinate order; both
can change which of several near-minimal coordinates is kept, so the chosen
hole-scan start is modelled only as some selected candidate, not as the exact
nearest one. -/
def find_coordinate_by_minimum_distance (cs : List Coordinate) :
    Option Coordinate :=
  match cs with
  | [] => none
  | c :: rest =>
    some (rest.foldl
      (fun best other => if distanceSq other < distanceSq best then other else best) c)

/-- Embeds the `FirstState` struct from `src/first_state.rs`. -/
structure FirstState where
  bag : Bag
  hands : List Hand
  max_matches : List Nat
  current_player : Nat
deriving DecidableEq

/-- Embeds the `NextState` struct from `src/next_state.rs`. -/
structure NextState where
  bag : Bag
  board : Board
  points : List Nat
  hands : List Hand
  current_player : Nat
deriving DecidableEq

/-- Embeds the `LastState` struct from `src/last_state.rs` (no bag, no current
player). -/
structure LastState where
  board : Board
  points : List Nat
  hands : List Hand
deriving DecidableEq

/-- Embeds the `FirstPlayError` enum from `src/first_state/first_play.rs`. -/
inductive FirstPlayError
  | empty_plays
  | indexes_out_of_bounds (indexesOutOfBounds : Plays)
  | coordinates_out_of_bounds (coordinatesOutOfBounds : Plays)
  | origin_not_included
  | not_max_matching (maxMatchingPlays : Finset (Finset Nat))
  | no_legal_plays
  | no_legal_lines
  | holes (holes : Finset (Coordinate × Coordinate))
  | duplicates (duplicates : Finset (Finset Coordinate))
  | multiple_matching (multipleMatching : Finset (Finset Coordinate))
deriving DecidableEq

/-- The current player's hand, `self.hands[self.current_player]`. -/
def FirstState.hand (s : FirstState) : Hand :=
  s.hands.getD s.current_player []

/-- The plays whose index is at or beyond the hand length,
`plays.left_range(hand_len..)`. -/
def indexesOutOfBoundsOf (handLen : Nat) (plays : Plays) : Plays :=
  plays.filter (fun e => handLen ≤ e.1)

/-- The `legal_plays` of `FirstState::check_plays`: the in-coordinate-bounds
plays restricted to indexes below the hand length
(`coordinates_in_bounds.left_range(..hand_len)`). -/
def FirstState.legal_plays (s : FirstState) (plays : Plays) : Plays :=
  (partition_by_coordinates plays).1.filter (fun e => e.1 < s.hand.length)

/-- The error set accumulated by `FirstState::check_plays`
(`src/first_state/first_play.rs`) over its first four checks, for non-empty
plays: out-of-bounds indexes, out-of-bounds coordinates, missing origin, and
not-maximum-matching, in source order. -/
def FirstState.accumulated_errors (s : FirstState) (plays : Plays) :
    Finset FirstPlayError :=
  let hand := s.hand
  let handLen := hand.length
  let idxOob := indexesOutOfBoundsOf handLen plays
  let e1 : Finset FirstPlayError :=
    if idxOob ≠ [] then {FirstPlayError.indexes_out_of_bounds idxOob} else ∅
  let coordsOut := (partition_by_coordinates plays).2
  let e2 :=
    if coordsOut ≠ [] then insert (FirstPlayError.coordinates_out_of_bounds coordsOut) e1
    else e1
  let coordsIn := (partition_by_coordinates plays).1
  let e3 :=
    if ¬ coordsIn.any (fun e => e.2 = ((0 : Int), (0 : Int))) then
      insert FirstPlayError.origin_not_included e2
    else e2
  let maxMatch := s.max_matches.getD s.current_player 0
  if (s.legal_plays plays).length ≠ maxMatch then
    insert (FirstPlayError.not_max_matching (possible_plays hand maxMatch)) e3
  else e3

/-- Embeds `FirstState::check_plays` from `src/first_state/first_play.rs`. -/
def FirstState.check_plays (s : FirstState) (plays : Plays) :
    Except (Finset FirstPlayError) Nat :=
  if plays = [] then .error {FirstPlayError.empty_plays}
  else
    let e4 := s.accumulated_errors plays
    let legalPlays := s.legal_plays plays
    match find_component_minimums_and_maximums (legalPlays.map Prod.snd) with
    | none => .error (insert FirstPlayError.no_legal_plays e4)
    | some bounds =>
      match find_coordinate_by_minimum_distance (legalPlays.map Prod.snd) with
      | none => .error (insert FirstPlayError.no_legal_plays e4)
      | some mid =>
        match find_holes HOLES_LIMIT (fun c => legalPlays.any (fun e => e.2 = c))
            bounds mid with
        | none => .error (insert FirstPlayError.no_legal_lines e4)
        | some hs =>
          let e5 := if hs ≠ ∅ then insert (FirstPlayError.holes hs) e4 else e4
          let line : Board :=
            legalPlays.map (fun e => (e.2, s.hand.getD e.1 defaultTile))
          -- the final `if !errors.is_empty() { Err(errors) } else { Ok(total_points) }`
          -- is reproduced in both branches of the `check_line` match
          match check_line line with
          | .error de =>
            let eD := if de.1 ≠ ∅ then insert (FirstPlayError.duplicates de.1) e5 else e5
            let eM :=
              if de.2 ≠ ∅ then insert (FirstPlayError.multiple_matching de.2) eD else eD
            if eM ≠ ∅ then .error eM else .ok 0
          | .ok pts => if e5 ≠ ∅ then .error e5 else .ok pts

/-- Embeds the removal loop shared by `FirstState::first_play`,
`NextState::next_play` (`plays.iter().rev().map(|(&i, &c)| (c, hand.remove(i)))`)
and, through `removeExchanged`, `NextState::next_exchange`: iterate the plays
in descending key order, remove each index from the hand (highest first, so the
remaining indexes stay stable), and pair the removed tile with its coordinate.
`hand.remove` panics on an out-of-bounds index in the source; it is only
reached with validated indexes, so the default tile is never read on those
paths. -/
def removePlayed (hand : Hand) (plays : Plays) : Board × Hand :=
  plays.reverse.foldl
    (fun acc e => (acc.1 ++ [(e.2, acc.2.getD e.1 defaultTile)], acc.2.eraseIdx e.1))
    ([], hand)

/-- Embeds `adjacent_coordinates` from `src/coordinate.rs`: the four
4-directional neighbours in natural lexicographic order. -/
def adjacent_coordinates (c : Coordinate) : List Coordinate :=
  [(c.1 - 1, c.2), (c.1, c.2 - 1), (c.1, c.2 + 1), (c.1 + 1, c.2)]

/-- Membership of a coordinate among the board keys,
`board.contains_key(&coordinate)`. -/
def boardContains (b : Board) (c : Coordinate) : Bool :=
  b.any (fun e => e.1 = c)

/-- Embeds the `for adjacent_coordinate in adjacent_coordinates(coordinate)`
loop of `NextState::partition_connected` (`src/next_state/next_play.rs`): scan
the neighbours in order; on the first neighbour on the board (`bks`) or already
proven connected, stop with the promotion flag set (the `break`); otherwise
collect each neighbour that is a candidate coordinate as a stack push.
Returns the pushes made before the loop ended and the promotion flag. -/
def scanAdjacent (bks : Coordinate → Bool) (cand connected : Finset Coordinate) :
    List Coordinate → List Coordinate × Bool
  | [] => ([], false)
  | a :: rest =>
    if bks a = true ∨ a ∈ connected then ([], true)
    else if a ∈ cand then
      ((a :: (scanAdjacent bks cand connected rest).1),
        (scanAdjacent bks cand connected rest).2)
    else scanAdjacent bks cand connected rest

/-- The decreasing measure of the `partition_connected` search loop.  Every
iteration strictly shrinks it (`dfs_measure_decreases` below), so running the
loop on any fuel beyond it reproduces the source's unbounded `while` loop. -/
def dfsMeasure (cand : Finset Coordinate) (stack : List Coordinate)
    (visited : Finset Coordinate) : Nat :=
  5 * ((cand ∪ stack.toFinset ∪ visited).card - visited.card) + stack.length

/-- Embeds the `while let Some(coordinate) = stack.pop()` loop of
`NextState::partition_connected` (`src/next_state/next_play.rs`): pop the top
of the stack, skip it when already visited, otherwise mark it visited, scan
its neighbours, and on promotion extend the connected set with the whole
visited set (which already holds the popped coordinate).  The list head is the
stack top, so the pushes are appended reversed.  The recursion is driven by a
fuel that the caller chooses beyond the loop's decreasing measure
`dfsMeasure`, so the out-of-fuel branch is never reached. -/
def dfs_loop (bks : Coordinate → Bool) (cand : Finset Coordinate) :
    Nat → List Coordinate → Finset Coordinate → Finset Coordinate → Finset Coordinate
  | 0, _, _, connected => connected
  | _ + 1, [], _, connected => connected
  | fuel + 1, c :: rest, visited, connected =>
    if c ∈ visited then dfs_loop bks cand fuel rest visited connected
    else
      if (scanAdjacent bks cand connected (adjacent_coordinates c)).2 then
        dfs_loop bks cand fuel
          ((scanAdjacent bks cand connected (adjacent_coordinates c)).1.reverse ++ rest)
          (insert c visited) (connected ∪ insert c visited)
      else
        dfs_loop bks cand fuel
          ((scanAdjacent bks cand connected (adjacent_coordinates c)).1.reverse ++ rest)
          (insert c visited) connected

/-- Embeds `NextState::partition_connected` from `src/next_state/next_play.rs`:
run the depth-first search from each candidate coordinate not yet proven
connected, then split the plays by membership in the final connected set
(connected first).  The bimap iterates its coordinates in ascending order; the
final connected set does not depend on that order, so the stored entry order is
used here. -/
def NextState.partition_connected (s : NextState) (possiblyConnected : Plays) :
    Plays × Plays :=
  let cand := (possiblyConnected.map Prod.snd).toFinset
  let connected := (possiblyConnected.map Prod.snd).foldl
    (fun conn c =>
      if c ∈ conn then conn
      else dfs_loop (boardContains s.board) cand (5 * (cand.card + 1) + 1) [c] ∅ conn) ∅
  possiblyConnected.partition (fun e => decide (e.2 ∈ connected))

/-- Lookup of a coordinate among the board entries, `board.get(&coordinate)`. -/
def boardLookup (board : Board) (c : Coordinate) : Option Tile :=
  (board.find? (fun e => e.1 = c)).map Prod.snd

/-- Embeds `get_plays_or_board` of `NextState::find_lines`
(`src/next_state/next_play.rs`): the tile at a coordinate, taken from the
candidate plays first and from the board otherwise. -/
def playsOrBoardLookup (board : Board) (hand : Hand) (legalPlays : Plays)
    (c : Coordinate) : Option Tile :=
  match legalPlays.find? (fun e => e.2 = c) with
  | some e => some (hand.getD e.1 defaultTile)
  | none => boardLookup board c

/-- Embeds the `iterator.map(get).while_some()` walks of
`NextState::find_lines`: collect the consecutive present tiles along the ray
`f 0, f 1, ...`.  The source iterates an unbounded range stopped by the first
absent coordinate; the walk visits pairwise distinct coordinates of the finite
occupied set, so any fuel larger than that set's size reproduces it exactly. -/
def walk_line (lookup : Coordinate → Option Tile) (f : Nat → Coordinate) :
    Nat → Nat → List (Coordinate × Tile)
  | 0, _ => []
  | fuel + 1, n =>
    match lookup (f n) with
    | some t => (f n, t) :: walk_line lookup f fuel (n + 1)
    | none => []

/-- The current player's hand of a `NextState`. -/
def NextState.hand (s : NextState) : Hand :=
  s.hands.getD s.current_player []

/-- Embeds `NextState::find_lines` from `src/next_state/next_play.rs`: the
line containing the plays (walked from the nearest-origin coordinate in both
directions through plays and board) followed by one perpendicular board line
per played tile, keeping only perpendicular lines longer than one tile.
`vertical` tells whether the plays line is a column (the `min_x == max_x`
branch of `check_plays`). -/
def NextState.find_lines (s : NextState) (legalPlays : Plays) (mid : Coordinate)
    (vertical : Bool) : List Board :=
  let hand := s.hand
  let fuel := s.board.length + legalPlays.length + 1
  let lookup := playsOrBoardLookup s.board hand legalPlays
  let inc :=
    if vertical then walk_line lookup (fun n => (mid.1, mid.2 + n)) fuel 0
    else walk_line lookup (fun n => (mid.1 + n, mid.2)) fuel 0
  let dec :=
    if vertical then walk_line lookup (fun n => (mid.1, mid.2 - 1 - n)) fuel 0
    else walk_line lookup (fun n => (mid.1 - 1 - n, mid.2)) fuel 0
  let playsLine : Board := inc ++ dec
  let boardLines := (legalPlays.map (fun e =>
      let c := e.2
      let pinc :=
        if vertical then walk_line (boardLookup s.board) (fun n => (c.1 + 1 + n, c.2)) fuel 0
        else walk_line (boardLookup s.board) (fun n => (c.1, c.2 + 1 + n)) fuel 0
      let pdec :=
        if vertical then walk_line (boardLookup s.board) (fun n => (c.1 - 1 - n, c.2)) fuel 0
        else walk_line (boardLookup s.board) (fun n => (c.1, c.2 - 1 - n)) fuel 0
      (((c, hand.getD e.1 defaultTile) :: (pinc ++ pdec)) : Board))).filter
    (fun l => 1 < l.length)
  playsLine :: boardLines

/-- Embeds `FirstState::first_play` from `src/first_state/first_play.rs`.
On a validation error the state is handed back unchanged next to the error
set, mirroring `Err((self, errors))`. -/
def FirstState.first_play (s : FirstState) (plays : Plays) :
    Except (FirstState × Finset FirstPlayError) NextState :=
  match s.check_plays plays with
  | .error errors => .error (s, errors)
  | .ok firstPlayPoints =>
    let hand := s.hand
    let removed := removePlayed hand plays
    -- hand.extend(self.bag.drain(self.bag.len().saturating_sub(plays.len())..))
    let start := s.bag.length - plays.length
    let handFinal := removed.2 ++ s.bag.drop start
    let bagAfter := s.bag.take start
    let points := (s.hands.map (fun _ => 0)).set s.current_player firstPlayPoints
    let hands := s.hands.set s.current_player handFinal
    .ok { bag := bagAfter
          board := removed.1
          points := points
          hands := hands
          current_player := (s.current_player + 1) % hands.length }

/-- Embeds the `NextPlayError` enum from `src/next_state/next_play.rs`. -/
inductive NextPlayError
  | empty_plays
  | indexes_out_of_bounds (indexesOutOfBounds : Plays)
  | coordinates_out_of_bounds (coordinatesOutOfBounds : Plays)
  | coordinates_occupied (coordinatesOccupied : Plays)
  | not_connected (notConnected : Plays)
  | no_legal_plays
  | no_legal_lines
  | holes (holes : Finset (Coordinate × Coordinate))
  | duplicates (duplicates : Finset (Finset Coordinate))
  | multiple_matching (multipleMatching : Finset (Finset Coordinate))
deriving DecidableEq

/-- Embeds the occupied-coordinate partition of `NextState::check_plays`:
the in-coordinate-bounds plays split into those not yet on the board
(first component) and those already occupied (second component). -/
def NextState.unoccupied_and_occupied (s : NextState) (plays : Plays) :
    Plays × Plays :=
  (partition_by_coordinates plays).1.partition
    (fun e => !(boardContains s.board e.2))

/-- The `legal_plays` of `NextState::check_plays`: the connected plays
restricted to indexes below the hand length
(`connected.left_range(..hand_len)`). -/
def NextState.legal_plays (s : NextState) (plays : Plays) : Plays :=
  (s.partition_connected (s.unoccupied_and_occupied plays).1).1.filter
    (fun e => e.1 < s.hand.length)

/-- The error set accumulated by `NextState::check_plays`
(`src/next_state/next_play.rs`) over its first five checks, for non-empty
plays: out-of-bounds indexes, out-of-bounds coordinates, occupied
coordinates, unconnected plays, in source order. -/
def NextState.accumulated_errors (s : NextState) (plays : Plays) :
    Finset NextPlayError :=
  let handLen := s.hand.length
  let idxOob := indexesOutOfBoundsOf handLen plays
  let e1 : Finset NextPlayError :=
    if idxOob ≠ [] then {NextPlayError.indexes_out_of_bounds idxOob} else ∅
  let coordsOut := (partition_by_coordinates plays).2
  let e2 :=
    if coordsOut ≠ [] then insert (NextPlayError.coordinates_out_of_bounds coordsOut) e1
    else e1
  let occupied := (s.unoccupied_and_occupied plays).2
  let e3 :=
    if occupied ≠ [] then insert (NextPlayError.coordinates_occupied occupied) e2
    else e2
  let notConnected := (s.partition_connected (s.unoccupied_and_occupied plays).1).2
  if notConnected ≠ [] then insert (NextPlayError.not_connected notConnected) e3
  else e3

/-- Embeds `NextState::check_plays` from `src/next_state/next_play.rs`. -/
def NextState.check_plays (s : NextState) (plays : Plays) :
    Except (Finset NextPlayError) Nat :=
  if plays = [] then .error {NextPlayError.empty_plays}
  else
    let e4 := s.accumulated_errors plays
    let legalPlays := s.legal_plays plays
    match find_component_minimums_and_maximums (legalPlays.map Prod.snd) with
    | none => .error (insert NextPlayError.no_legal_plays e4)
    | some bounds =>
      match find_coordinate_by_minimum_distance (legalPlays.map Prod.snd) with
      | none => .error (insert NextPlayError.no_legal_plays e4)
      | some mid =>
        -- occupancy for the hole scan: on the board, or anywhere in the
        -- original plays (the source tests `plays`, not `legal_plays`, here)
        let occ := fun c => boardContains s.board c || plays.any (fun e => e.2 = c)
        match find_holes HOLES_LIMIT occ bounds mid with
        | none => .error (insert NextPlayError.no_legal_lines e4)
        | some hs =>
          let e5 := if hs ≠ ∅ then insert (NextPlayError.holes hs) e4 else e4
          -- bounds = (min_x, min_y, max_x, max_y): the plays line is vertical
          -- in the `min_x == max_x` branch
          let lines := s.find_lines legalPlays mid (bounds.1 = bounds.2.2.1)
          let acc := lines.foldl (fun acc line =>
            match check_line line with
            | .error de =>
              let eD := if de.1 ≠ ∅ then insert (NextPlayError.duplicates de.1) acc.2 else acc.2
              let eM :=
                if de.2 ≠ ∅ then insert (NextPlayError.multiple_matching de.2) eD else eD
              (acc.1, eM)
            | .ok pts => (acc.1 + pts, acc.2)) ((0 : Nat), e5)
          if acc.2 ≠ ∅ then .error acc.2 else .ok acc.1

/-- Embeds `NextState::has_ended` from `src/next_state.rs`: the current
player's hand is empty, or the board holds exactly `TILES_LEN` tiles whose
bounding box is `COLORS_LEN` by `SHAPES_LEN` (either orientation).  The source
folds the bounds from `isize::MAX`/`isize::MIN` sentinels; the board is
non-empty on that path (its length is `TILES_LEN`), so the fold over the first
key and the rest computes the same bounds. -/
def NextState.has_ended (s : NextState) : Bool :=
  if (s.hands.getD s.current_player []).isEmpty then true
  else if s.board.length ≠ TILES_LEN then false
  else
    match find_component_minimums_and_maximums (s.board.map Prod.fst) with
    | none => false
    | some (minX, minY, maxX, maxY) =>
      let xDiff := (maxX - minX).natAbs
      let yDiff := (maxY - minY).natAbs
      decide ((xDiff = COLORS_LEN - 1 ∧ yDiff = SHAPES_LEN - 1) ∨
        (yDiff = COLORS_LEN - 1 ∧ xDiff = SHAPES_LEN - 1))

/-- Insertion into the board map: `HashMap::insert` replaces the entry of an
existing key and appends a new entry otherwise. -/
def insertBoard (b : Board) (c : Coordinate) (t : Tile) : Board :=
  if b.any (fun e => e.1 = c) then b.map (fun e => if e.1 = c then (c, t) else e)
  else b ++ [(c, t)]

/-- Embeds `self.board.extend(..)` of `NextState::next_play`: insert the new
entries in iteration order. -/
def extendBoard (b : Board) (entries : Board) : Board :=
  entries.foldl (fun acc e => insertBoard acc e.1 e.2) b

/-- The state mutation performed by `NextState::next_play` after validation:
remove the played tiles from the hand (highest index first), extend the board
with them, and refill the hand from the end of the bag
(`self.bag.drain(self.bag.len().saturating_sub(plays.len())..)`).  Points and
current player are updated afterwards by `next_play` itself. -/
def NextState.apply_plays (s : NextState) (plays : Plays) : NextState :=
  let removed := removePlayed s.hand plays
  let start := s.bag.length - plays.length
  { bag := s.bag.take start
    board := extendBoard s.board removed.1
    points := s.points
    hands := s.hands.set s.current_player (removed.2 ++ s.bag.drop start)
    current_player := s.current_player }

/-- Embeds `NextState::next_play` from `src/next_state/next_play.rs`.
On a validation error the state is handed back unchanged next to the error
set (`Err((self, errors))`); on success the game either continues
(`Either::Left`, embedded as `Sum.inl`) or ends with the last-play bonus
(`Either::Right`, embedded as `Sum.inr`). -/
def NextState.next_play (s : NextState) (plays : Plays) :
    Except (NextState × Finset NextPlayError) (NextState ⊕ LastState) :=
  match s.check_plays plays with
  | .error errors => .error (s, errors)
  | .ok nextPlayPoints =>
    let s1 := s.apply_plays plays
    if s1.has_ended then
      .ok (.inr
        { board := s1.board
          points := s1.points.set s1.current_player
            (s1.points.getD s1.current_player 0 + nextPlayPoints + LAST_PLAY_BONUS)
          hands := s1.hands })
    else
      .ok (.inl
        { bag := s1.bag
          board := s1.board
          points := s1.points.set s1.current_player
            (s1.points.getD s1.current_player 0 + nextPlayPoints)
          hands := s1.hands
          current_player := (s1.current_player + 1) % s1.hands.length })

/-- Embeds the `NextExchangeError` enum from `src/next_state/next_exchange.rs`. -/
inductive NextExchangeError
  | has_ended
  | empty_tiles
  | indexes_out_of_bounds (illegalExchanges : List Nat) (handLen : Nat)
  | no_legal_tiles
  | not_enough_tiles (legalExchanges : Nat) (bagLen : Nat)
deriving DecidableEq

/-- Embeds `NextState::check_exchanges` from `src/next_state/next_exchange.rs`. -/
def NextState.check_exchanges (s : NextState) (exchanges : Exchanges) :
    Except (Finset NextExchangeError) Unit :=
  let e0 : Finset NextExchangeError :=
    if s.has_ended then {NextExchangeError.has_ended} else ∅
  if exchanges = [] then .error (insert NextExchangeError.empty_tiles e0)
  else
    let handLen := s.hand.length
    let illegal := exchanges.filter (fun i => handLen ≤ i)
    let e1 :=
      if illegal ≠ [] then insert (NextExchangeError.indexes_out_of_bounds illegal handLen) e0
      else e0
    let legal := (exchanges.filter (fun i => i < handLen)).length
    let e2 :=
      if legal = 0 then insert NextExchangeError.no_legal_tiles e1
      else if s.bag.length < legal then
        insert (NextExchangeError.not_enough_tiles legal s.bag.length) e1
      else e1
    if e2 ≠ ∅ then .error e2 else .ok ()

/-- Embeds the removal loop of `NextState::next_exchange`
(`exchanges.iter().rev().map(|&index| hand.remove(index)).collect_vec()`):
remove the exchanged indexes from the hand, highest first, collecting the
removed tiles in that order. -/
def removeExchanged (hand : Hand) (exchanges : Exchanges) : List Tile × Hand :=
  exchanges.reverse.foldl
    (fun acc i => (acc.1 ++ [acc.2.getD i defaultTile], acc.2.eraseIdx i))
    ([], hand)

/-- One `Vec::swap`: exchange the entries at two indexes, both in bounds on
every reachable call. -/
def swapIdx (l : List Tile) (i j : Nat) : List Tile :=
  match l.get? i, l.get? j with
  | some a, some b => (l.set i b).set j a
  | _, _ => l

/-- Embeds `NextState::next_exchange` from `src/next_state/next_exchange.rs`.
The thread rng is passed as `rng`: the loop iteration appending at offset `n`
swaps with index `rng n % end` (the source samples `Uniform::from(0..end)`,
always below `end`; `end` is positive on every reachable call because the
exchanges are non-empty).  On a validation error the state is handed back
unchanged next to the error set, mirroring the untouched `&mut self`. -/
def NextState.next_exchange (s : NextState) (exchanges : Exchanges)
    (rng : Nat → Nat) : Except (NextState × Finset NextExchangeError) NextState :=
  match s.check_exchanges exchanges with
  | .error errors => .error (s, errors)
  | .ok _ =>
    let removed := removeExchanged s.hand exchanges
    -- drain the bag before appending the removed tiles, so that tiles do not
    -- return into the hand
    let start := s.bag.length - exchanges.length
    let handFinal := removed.2 ++ s.bag.drop start
    let bagExtended := s.bag.take start ++ removed.1
    let endLen := bagExtended.length
    let bagShuffled := (List.range (endLen - start)).foldl
      (fun b n => swapIdx b (start + n) (rng n % endLen)) bagExtended
    let hands := s.hands.set s.current_player handFinal
    .ok { bag := bagShuffled
          board := s.board
          points := s.points
          hands := hands
          current_player := (s.current_player + 1) % hands.length }

/-- A one-player `FirstState` used to instantiate theorems on concrete input. -/
def sampleFirst : FirstState :=
  { bag := [], hands := [[defaultTile]], max_matches := [1], current_player := 0 }

/-- A two-player `NextState` with one board tile used to instantiate theorems
on concrete input. -/
def sampleNext : NextState :=
  { bag := []
    board := [(((0 : Int), (0 : Int)), (Color.green, Shape.clover))]
    points := [0, 0]
    hands := [[(Color.green, Shape.x)], [(Color.blue, Shape.clover)]]
    current_player := 0 }

/-- A fixed rng stream used to instantiate theorems on concrete input. -/
def sampleRng : Nat → Nat := fun _ => 0

/-- A one-entry plays value away from the origin, used to instantiate
theorems on concrete input. -/
def samplePlaysOffOrigin : Plays := [(0, ((1 : Int), (0 : Int)))]

/-- A two-entry plays value with one bad index and one bad coordinate, used to
instantiate theorems on concrete input. -/
def samplePlaysMixed : Plays :=
  [(0, ((0 : Int), (0 : Int))), (5, ((20000 : Int), (0 : Int)))]

/-- An ended one-player `NextState` (empty current hand), used to instantiate
theorems on concrete input. -/
def sampleEnded : NextState :=
  { bag := [], board := [], points := [0], hands := [[]], current_player := 0 }

/-- A two-tile legal color line used to instantiate theorems on concrete
input. -/
def sampleLine : Board :=
  [(((0 : Int), (0 : Int)), (Color.red, Shape.circle)),
   (((0 : Int), (1 : Int)), (Color.red, Shape.clover))]

/-- The compact-rectangle test of `NextState::has_ended`: the board's bounding
box spans `COLORS_LEN` by `SHAPES_LEN` cells (either orientation); together
with exactly `TILES_LEN` distinct occupied coordinates this makes the board a
completely filled rectangle. -/
def fullRectangle (board : Board) : Prop :=
  ∃ b, find_component_minimums_and_maximums (board.map Prod.fst) = some b ∧
    (((b.2.2.1 - b.1).natAbs = COLORS_LEN - 1 ∧ (b.2.2.2 - b.2.1).natAbs = SHAPES_LEN - 1) ∨
      ((b.2.2.2 - b.2.1).natAbs = COLORS_LEN - 1 ∧ (b.2.2.1 - b.1).natAbs = SHAPES_LEN - 1))

/-- A one-entry plays value adjacent to the board of `sampleNext`, used to
instantiate theorems on concrete input. -/
def samplePlaysAdj : Plays := [(0, ((0 : Int), (1 : Int)))]

/-- The terminal state `sampleNext.next_play samplePlaysAdj` produces: the
acting player plays their only tile and empties their hand. -/
def sampleLast : LastState :=
  { board := [(((0 : Int), (0 : Int)), (Color.green, Shape.clover)),
              (((0 : Int), (1 : Int)), (Color.green, Shape.x))]
    points := [8, 0]
    hands := [[], [(Color.blue, Shape.clover)]] }

/-- Embeds `Color::colors` from `src/tile.rs`. -/
def colors : List Color :=
  [Color.red, Color.orange, Color.yellow, Color.green, Color.blue, Color.purple]

/-- Embeds `Shape::shapes` from `src/tile.rs`. -/
def shapes : List Shape :=
  [Shape.circle, Shape.clover, Shape.diamond, Shape.square, Shape.starburst, Shape.x]

/-- The total number of tiles held in hands. -/
def handsTotal (hs : List Hand) : Nat :=
  (hs.map List.length).sum

/-- The total tile count of the state a `next_play` produced: bag plus hands
plus board for an ongoing state, hands plus board for a terminal state (which
holds no bag), nothing for a rejection. -/
def resultTotal :
    Except (NextState × Finset NextPlayError) (NextState ⊕ LastState) → Option Nat
  | .ok (.inl ns) => some (ns.bag.length + handsTotal ns.hands + ns.board.length)
  | .ok (.inr ls) => some (handsTotal ls.hands + ls.board.length)
  | .error _ => none

/-- Whether a `next_play` produced a terminal state. -/
def isTerminalOk :
    Except (NextState × Finset NextPlayError) (NextState ⊕ LastState) → Bool
  | .ok (.inr _) => true
  | _ => false

/-- A full color-by-shape grid with the origin cell removed: the board one
play away from the deadlock rectangle. -/
def deadlockBoard : Board :=
  (((List.range 6).flatMap (fun xi => (List.range 6).map (fun yi =>
    ((Int.ofNat xi, Int.ofNat yi),
      (colors.getD xi Color.red, shapes.getD yi Shape.circle))))).filter
    (fun e => e.1 ≠ ((0 : Int), (0 : Int))))

/-- A one-player state one play away from the deadlock rectangle, holding a
bag of two spare tiles. -/
def deadlockState : NextState :=
  { bag := [(Color.red, Shape.circle), (Color.red, Shape.circle)]
    board := deadlockBoard
    points := [0]
    hands := [[(Color.red, Shape.circle)]]
    current_player := 0 }

/-- The play completing the deadlock rectangle of `deadlockState`. -/
def deadlockPlays : Plays := [(0, ((0 : Int), (0 : Int)))]

deriving instance DecidableEq for Except

/-- A two-player state with a two-tile bag used to instantiate the exchange
theorems at a successful input. -/
def sampleExchState : NextState :=
  { bag := [(Color.blue, Shape.starburst), (Color.yellow, Shape.square)]
    board := [(((0 : Int), (0 : Int)), (Color.green, Shape.clover))]
    points := [0, 0]
    hands := [[defaultTile, (Color.purple, Shape.diamond)], [(Color.orange, Shape.x)]]
    current_player := 0 }

/-- An occupancy test with plays at `(0, -2)`, `(0, 0)` and `(0, 2)`, leaving
single-point gaps at `(0, -1)` and `(0, 1)`. -/
def sampleHoleOccupied : Coordinate → Bool :=
  fun c => c = ((0 : Int), (-2 : Int)) || c = (0, 0) || c = (0, 2)

/-- The specification's notion of connectivity, written from the spec's words
for comparison with `NextState::partition_connected`: a candidate coordinate
is connected when it is 4-adjacent to a board tile (`bks`), or 4-adjacent to
another connected candidate coordinate. -/
inductive SpecConnected (bks : Coordinate → Bool) (cand : Finset Coordinate) :
    Coordinate → Prop
  | direct {c a : Coordinate} (hc : c ∈ cand) (ha : a ∈ adjacent_coordinates c)
      (hb : bks a = true) : SpecConnected bks cand c
  | step {c a : Coordinate} (hc : c ∈ cand) (ha : a ∈ adjacent_coordinates c)
      (hconn : SpecConnected bks cand a) : SpecConnected bks cand c

/-- One 4-adjacency hop between two candidate coordinates. -/
def AdjStep (cand : Finset Coordinate) (a b : Coordinate) : Prop :=
  a ∈ cand ∧ b ∈ cand ∧ b ∈ adjacent_coordinates a

/-- A chain of 4-adjacency hops through candidate coordinates. -/
def Linked (cand : Finset Coordinate) : Coordinate → Coordinate → Prop :=
  Relation.ReflTransGen (AdjStep cand)

/-! ## Theorems -/

theorem subset_ite_insert {α : Type} [DecidableEq α] (c : Prop) [Decidable c]
    (x : α) (t : Finset α) : t ⊆ (if c then insert x t else t) := by
  split
  · exact Finset.subset_insert _ _
  · exact Finset.Subset.refl t

theorem mem_ite_insert {α : Type} [DecidableEq α] {c : Prop} [Decidable c]
    {x y : α} {t : Finset α} (h : x ∈ (if c then insert y t else t)) :
    x = y ∨ x ∈ t := by
  split at h
  · exact Finset.mem_insert.mp h
  · exact Or.inr h

theorem ite_insert_eq_empty {α : Type} [DecidableEq α] {c : Prop} [Decidable c]
    {x : α} {t : Finset α} (h : (if c then insert x t else t) = ∅) : t = ∅ := by
  split at h
  · exact absurd h (Finset.insert_ne_empty _ _)
  · exact h

theorem except_ite_ok {ε α : Type} {c : Prop} [Decidable c] {e : ε} {a b : α}
    (h : (if c then Except.error e else Except.ok a) = Except.ok b) :
    ¬c ∧ a = b := by
  split at h
  · simp at h
  · exact ⟨by assumption, by simpa using h⟩

theorem except_ite_error {ε α : Type} {c : Prop} [Decidable c] {e : ε} {a : α}
    {b : ε} (h : (if c then Except.error e else Except.ok a) = Except.error b) :
    c ∧ e = b := by
  split at h
  · exact ⟨by assumption, by simpa using h⟩
  · simp at h

/-- A successful `FirstState::check_plays` accumulated no error in its first
four checks. -/
theorem FirstState.first_check_ok_accumulated (s : FirstState) (p : Plays) (pts : Nat)
    (h : s.check_plays p = .ok pts) : s.accumulated_errors p = ∅ := by
  unfold FirstState.check_plays at h
  split at h
  · simp at h
  · dsimp only at h
    split at h
    · simp at h
    · split at h
      · simp at h
      · split at h
        · simp at h
        · split at h
          · obtain ⟨hguard, -⟩ := except_ite_ok h
            exact ite_insert_eq_empty (ite_insert_eq_empty
              (ite_insert_eq_empty (not_not.mp hguard)))
          · obtain ⟨hguard, -⟩ := except_ite_ok h
            exact ite_insert_eq_empty (not_not.mp hguard)

/-- The error set of a failed `FirstState::check_plays` contains every error
accumulated in the first four checks. -/
theorem FirstState.check_error_superset (s : FirstState) (p : Plays)
    (E : Finset FirstPlayError) (hne : p ≠ []) (h : s.check_plays p = .error E) :
    s.accumulated_errors p ⊆ E := by
  unfold FirstState.check_plays at h
  rw [if_neg hne] at h
  dsimp only at h
  split at h
  · simp only [Except.error.injEq] at h
    exact h ▸ Finset.subset_insert _ _
  · split at h
    · simp only [Except.error.injEq] at h
      exact h ▸ Finset.subset_insert _ _
    · split at h
      · simp only [Except.error.injEq] at h
        exact h ▸ Finset.subset_insert _ _
      · split at h
        · obtain ⟨-, h⟩ := except_ite_error h
          exact h ▸ (subset_ite_insert _ _ _).trans ((subset_ite_insert _ _ _).trans
            (subset_ite_insert _ _ _))
        · obtain ⟨-, h⟩ := except_ite_error h
          exact h ▸ subset_ite_insert _ _ _

set_option maxHeartbeats 1000000 in
/-- Every member of the error set of a failed `FirstState::check_plays` is an
accumulated early error or one of the later error kinds. -/
theorem FirstState.check_error_members (s : FirstState) (p : Plays)
    (E : Finset FirstPlayError) (hne : p ≠ []) (h : s.check_plays p = .error E) :
    ∀ x ∈ E, x ∈ s.accumulated_errors p ∨ x = FirstPlayError.no_legal_plays ∨
      x = FirstPlayError.no_legal_lines ∨ (∃ hset, x = FirstPlayError.holes hset) ∨
      (∃ d, x = FirstPlayError.duplicates d) ∨
      (∃ m, x = FirstPlayError.multiple_matching m) := by
  intro x hx
  unfold FirstState.check_plays at h
  rw [if_neg hne] at h
  dsimp only at h
  split at h
  · simp only [Except.error.injEq] at h
    subst h
    rcases Finset.mem_insert.mp hx with hx | hx <;> tauto
  · split at h
    · simp only [Except.error.injEq] at h
      subst h
      rcases Finset.mem_insert.mp hx with hx | hx <;> tauto
    · split at h
      · simp only [Except.error.injEq] at h
        subst h
        rcases Finset.mem_insert.mp hx with hx | hx <;> tauto
      · split at h
        · obtain ⟨-, h⟩ := except_ite_error h
          subst h
          rcases mem_ite_insert hx with hx | hx
          · exact .inr (.inr (.inr (.inr (.inr ⟨_, hx⟩))))
          · rcases mem_ite_insert hx with hx | hx
            · exact .inr (.inr (.inr (.inr (.inl ⟨_, hx⟩))))
            · rcases mem_ite_insert hx with hx | hx
              · exact .inr (.inr (.inr (.inl ⟨_, hx⟩)))
              · exact .inl hx
        · obtain ⟨-, h⟩ := except_ite_error h
          subst h
          rcases mem_ite_insert hx with hx | hx
          · exact .inr (.inr (.inr (.inl ⟨_, hx⟩)))
          · exact .inl hx

/-- A failed `FirstState::check_plays` returns some error set (non-empty
accumulated errors force rejection). -/
theorem FirstState.check_errors_of_accumulated_ne (s : FirstState) (p : Plays)
    (h : s.accumulated_errors p ≠ ∅) : ∃ E, s.check_plays p = .error E := by
  cases hc : s.check_plays p with
  | error E => exact ⟨E, rfl⟩
  | ok pts => exact absurd (s.first_check_ok_accumulated p pts hc) h

/-- Membership of `OriginNotIncluded` in the accumulated error set of
`FirstState::check_plays` is exactly the absence of an in-coordinate-bounds
play at the origin. -/
theorem origin_mem_accumulated_iff (s : FirstState) (p : Plays) :
    FirstPlayError.origin_not_included ∈ s.accumulated_errors p ↔
      ¬ ∃ e ∈ (partition_by_coordinates p).1, e.2 = ((0 : Int), (0 : Int)) := by
  unfold FirstState.accumulated_errors
  dsimp only
  split <;> split <;> split <;> split <;>
    simp_all [List.any_eq_true]

/-- Membership of `IndexesOutOfBounds` in the accumulated error set of
`FirstState::check_plays`: reported with exactly the plays whose index is at or
beyond the hand length, when there is one. -/
theorem indexes_mem_accumulated_iff (s : FirstState) (p : Plays) (q : Plays) :
    FirstPlayError.indexes_out_of_bounds q ∈ s.accumulated_errors p ↔
      (q = indexesOutOfBoundsOf s.hand.length p ∧
        indexesOutOfBoundsOf s.hand.length p ≠ []) := by
  unfold FirstState.accumulated_errors
  dsimp only
  split <;> split <;> split <;> split <;> simp_all

/-- Membership of `CoordinatesOutOfBounds` in the accumulated error set of
`FirstState::check_plays`: reported with exactly the plays outside the
coordinate limit, when there is one. -/
theorem coordinates_mem_accumulated_iff (s : FirstState) (p : Plays) (q : Plays) :
    FirstPlayError.coordinates_out_of_bounds q ∈ s.accumulated_errors p ↔
      (q = (partition_by_coordinates p).2 ∧ (partition_by_coordinates p).2 ≠ []) := by
  unfold FirstState.accumulated_errors
  dsimp only
  split <;> split <;> split <;> split <;> simp_all

/-- Membership of `NotMaxMatching` in the accumulated error set of
`FirstState::check_plays`: reported with exactly the maximum matching
combinations of the hand, when the legal play count misses the precomputed
maximum. -/
theorem not_max_matching_mem_accumulated_iff (s : FirstState) (p : Plays)
    (pp : Finset (Finset Nat)) :
    FirstPlayError.not_max_matching pp ∈ s.accumulated_errors p ↔
      (pp = possible_plays s.hand (s.max_matches.getD s.current_player 0) ∧
        (s.legal_plays p).length ≠ s.max_matches.getD s.current_player 0) := by
  unfold FirstState.accumulated_errors
  dsimp only
  split <;> split <;> split <;> split <;> simp_all

/-- C1: for every state and every rejected action, the operation leaves the
state unchanged: when `FirstState::first_play`, `NextState::next_play` or
`NextState::next_exchange` returns an error, the very same state value (so the
bag, the board, every hand, every player's points, and the current-player
index) is handed back alongside the error set. -/
theorem rejected_action_returns_unchanged_state (fs : FirstState)
    (ns : NextState) (p q : Plays) (ex : Exchanges) (rng : Nat → Nat) :
    (∀ s' E, fs.first_play p = .error (s', E) → s' = fs)
    ∧ (∀ s' E, ns.next_play q = .error (s', E) → s' = ns)
    ∧ (∀ s' E, ns.next_exchange ex rng = .error (s', E) → s' = ns) := by
  refine ⟨?_, ?_, ?_⟩
  · intro s' E h
    unfold FirstState.first_play at h
    split at h
    · simp only [Except.error.injEq, Prod.mk.injEq] at h
      exact h.1.symm
    · dsimp only at h
      simp at h
  · intro s' E h
    unfold NextState.next_play at h
    split at h
    · simp only [Except.error.injEq, Prod.mk.injEq] at h
      exact h.1.symm
    · dsimp only at h
      split at h <;> simp at h
  · intro s' E h
    unfold NextState.next_exchange at h
    split at h
    · simp only [Except.error.injEq, Prod.mk.injEq] at h
      exact h.1.symm
    · dsimp only at h
      simp at h

/-- Witness for C1 at concrete inputs: the empty play and the empty exchange
are rejected with the original state handed back. -/
theorem rejected_action_returns_unchanged_state_witness :
    (FirstState.first_play sampleFirst [] =
        .error (sampleFirst, {FirstPlayError.empty_plays})
      ∧ sampleFirst = sampleFirst)
    ∧ (NextState.next_play sampleNext [] =
        .error (sampleNext, {NextPlayError.empty_plays})
      ∧ sampleNext = sampleNext)
    ∧ (NextState.next_exchange sampleNext [] sampleRng =
        .error (sampleNext, {NextExchangeError.empty_tiles})
      ∧ sampleNext = sampleNext) :=
  ⟨⟨by decide,
    (rejected_action_returns_unchanged_state sampleFirst sampleNext [] [] []
        sampleRng).1 sampleFirst {FirstPlayError.empty_plays} (by decide)⟩,
   ⟨by decide,
    (rejected_action_returns_unchanged_state sampleFirst sampleNext [] [] []
        sampleRng).2.1 sampleNext {NextPlayError.empty_plays} (by decide)⟩,
   ⟨by decide,
    (rejected_action_returns_unchanged_state sampleFirst sampleNext [] [] []
        sampleRng).2.2 sampleNext {NextExchangeError.empty_tiles} (by decide)⟩⟩

/-- C10: the opening turn always enforces the origin rule: for every
`FirstState` and non-empty plays, the validation of `first_play` reports
`OriginNotIncluded` if and only if no in-coordinate-bounds play coordinate
equals `(0, 0)`; in particular a successful validation always includes the
origin. -/
theorem first_play_origin_rule (s : FirstState) (p : Plays) (hne : p ≠ []) :
    (∀ E, s.check_plays p = .error E →
      (FirstPlayError.origin_not_included ∈ E ↔
        ¬ ∃ e ∈ (partition_by_coordinates p).1, e.2 = ((0 : Int), (0 : Int))))
    ∧ (∀ pts, s.check_plays p = .ok pts →
        ∃ e ∈ (partition_by_coordinates p).1, e.2 = ((0 : Int), (0 : Int))) := by
  constructor
  · intro E hE
    constructor
    · intro hmem
      rcases s.check_error_members p E hne hE _ hmem with hx | hx | hx | hx | hx | hx
      · exact (origin_mem_accumulated_iff s p).mp hx
      · exact absurd hx (by simp)
      · exact absurd hx (by simp)
      · rcases hx with ⟨w, hx⟩
        exact absurd hx (by simp)
      · rcases hx with ⟨w, hx⟩
        exact absurd hx (by simp)
      · rcases hx with ⟨w, hx⟩
        exact absurd hx (by simp)
    · intro hno
      exact s.check_error_superset p E hne hE ((origin_mem_accumulated_iff s p).mpr hno)
  · intro pts hok
    by_contra hno
    have hmem := (origin_mem_accumulated_iff s p).mpr hno
    rw [s.first_check_ok_accumulated p pts hok] at hmem
    exact absurd hmem (Finset.not_mem_empty _)

/-- Witness for C10 at a concrete input: a single play away from the origin. -/
theorem first_play_origin_rule_witness :
    samplePlaysOffOrigin ≠ [] ∧
      ((∀ E, sampleFirst.check_plays samplePlaysOffOrigin = .error E →
        (FirstPlayError.origin_not_included ∈ E ↔
          ¬ ∃ e ∈ (partition_by_coordinates samplePlaysOffOrigin).1,
              e.2 = ((0 : Int), (0 : Int))))
      ∧ (∀ pts, sampleFirst.check_plays samplePlaysOffOrigin = .ok pts →
          ∃ e ∈ (partition_by_coordinates samplePlaysOffOrigin).1,
            e.2 = ((0 : Int), (0 : Int)))) :=
  ⟨by decide, first_play_origin_rule sampleFirst samplePlaysOffOrigin (by decide)⟩

/-- C5: for every first play of a non-empty candidate whose count of legal
plays differs from the hand's precomputed maximum matching count, validation
reports `NotMaxMatching` whose payload is exactly `possible_plays` of the hand
at that maximum (every maximum-length combination of distinct-valued hand
tiles that are internally color-uniform or shape-uniform); a play whose legal
count equals the maximum is never rejected on this ground. -/
theorem first_play_not_max_matching_rule (s : FirstState) (p : Plays)
    (hne : p ≠ []) :
    (∀ E, s.check_plays p = .error E →
      ∀ pp, (FirstPlayError.not_max_matching pp ∈ E ↔
        (pp = possible_plays s.hand (s.max_matches.getD s.current_player 0) ∧
          (s.legal_plays p).length ≠ s.max_matches.getD s.current_player 0)))
    ∧ (∀ pts, s.check_plays p = .ok pts →
        (s.legal_plays p).length = s.max_matches.getD s.current_player 0) := by
  constructor
  · intro E hE pp
    constructor
    · intro hmem
      rcases s.check_error_members p E hne hE _ hmem with hx | hx | hx | hx | hx | hx
      · exact (not_max_matching_mem_accumulated_iff s p pp).mp hx
      · exact absurd hx (by simp)
      · exact absurd hx (by simp)
      · rcases hx with ⟨w, hx⟩
        exact absurd hx (by simp)
      · rcases hx with ⟨w, hx⟩
        exact absurd hx (by simp)
      · rcases hx with ⟨w, hx⟩
        exact absurd hx (by simp)
    · intro hcond
      exact s.check_error_superset p E hne hE
        ((not_max_matching_mem_accumulated_iff s p pp).mpr hcond)
  · intro pts hok
    by_contra hne'
    have hmem := (not_max_matching_mem_accumulated_iff s p
      (possible_plays s.hand (s.max_matches.getD s.current_player 0))).mpr ⟨rfl, hne'⟩
    rw [s.first_check_ok_accumulated p pts hok] at hmem
    exact absurd hmem (Finset.not_mem_empty _)

/-- Witness for C5 at a concrete input: a single play at the origin from a
one-tile hand whose maximum match is one. -/
theorem first_play_not_max_matching_rule_witness :
    samplePlaysOffOrigin ≠ [] ∧
      ((∀ E, sampleFirst.check_plays samplePlaysOffOrigin = .error E →
        ∀ pp, (FirstPlayError.not_max_matching pp ∈ E ↔
          (pp = possible_plays sampleFirst.hand
              (sampleFirst.max_matches.getD sampleFirst.current_player 0) ∧
            (sampleFirst.legal_plays samplePlaysOffOrigin).length ≠
              sampleFirst.max_matches.getD sampleFirst.current_player 0)))
      ∧ (∀ pts, sampleFirst.check_plays samplePlaysOffOrigin = .ok pts →
          (sampleFirst.legal_plays samplePlaysOffOrigin).length =
            sampleFirst.max_matches.getD sampleFirst.current_player 0)) :=
  ⟨by decide, first_play_not_max_matching_rule sampleFirst samplePlaysOffOrigin (by decide)⟩

theorem exists_error_of_two_members {e : Type} [DecidableEq e] {a : Type}
    (t : Finset e) (u : a) {x y : e} (hx : x ∈ t) (hy : y ∈ t) :
    ∃ E, (if t ≠ ∅ then (Except.error t : Except (Finset e) a) else Except.ok u) =
        Except.error E ∧ x ∈ E ∧ y ∈ E := by
  refine ⟨t, ?_, hx, hy⟩
  rw [if_pos (Finset.ne_empty_of_mem hx)]

/-- C4: inputs violating several independent rule categories at once get every
violated category reported in the same returned error set: a non-empty first
play holding both an out-of-bounds index and an out-of-bounds coordinate is
rejected with both `IndexesOutOfBounds` and `CoordinatesOutOfBounds` in one
set, and a non-empty exchange after game end that also names out-of-bounds
indexes is rejected with both `HasEnded` and `IndexesOutOfBounds` in one
set. -/
theorem validation_accumulates_all_violations (s : FirstState) (ns : NextState)
    (p : Plays) (ex : Exchanges) :
    (p ≠ [] → indexesOutOfBoundsOf s.hand.length p ≠ [] →
      (partition_by_coordinates p).2 ≠ [] →
      ∃ E, s.check_plays p = .error E ∧
        FirstPlayError.indexes_out_of_bounds (indexesOutOfBoundsOf s.hand.length p) ∈ E ∧
        FirstPlayError.coordinates_out_of_bounds ((partition_by_coordinates p).2) ∈ E)
    ∧ (ex ≠ [] → ns.has_ended = true →
        ex.filter (fun i => ns.hand.length ≤ i) ≠ [] →
        ∃ E, ns.check_exchanges ex = .error E ∧
          NextExchangeError.has_ended ∈ E ∧
          NextExchangeError.indexes_out_of_bounds
            (ex.filter (fun i => ns.hand.length ≤ i)) ns.hand.length ∈ E) := by
  constructor
  · intro hne hidx hcoord
    have hmem1 := (indexes_mem_accumulated_iff s p _).mpr ⟨rfl, hidx⟩
    have hmem2 := (coordinates_mem_accumulated_iff s p _).mpr ⟨rfl, hcoord⟩
    obtain ⟨E, hE⟩ := s.check_errors_of_accumulated_ne p (Finset.ne_empty_of_mem hmem1)
    exact ⟨E, hE, s.check_error_superset p E hne hE hmem1,
      s.check_error_superset p E hne hE hmem2⟩
  · intro hexne hended hill
    unfold NextState.check_exchanges
    rw [if_neg hexne]
    dsimp only
    rw [if_pos hended, if_pos hill]
    apply exists_error_of_two_members
    · split
      · exact Finset.mem_insert_of_mem (by simp)
      · split
        · exact Finset.mem_insert_of_mem (by simp)
        · simp
    · split
      · exact Finset.mem_insert_of_mem (Finset.mem_insert_self _ _)
      · split
        · exact Finset.mem_insert_of_mem (Finset.mem_insert_self _ _)
        · exact Finset.mem_insert_self _ _

/-- Witness for C4 at concrete inputs: a first play with a bad index and a bad
coordinate, and an exchange with a bad index after the game ended. -/
theorem validation_accumulates_all_violations_witness :
    (samplePlaysMixed ≠ [] ∧
      indexesOutOfBoundsOf sampleFirst.hand.length samplePlaysMixed ≠ [] ∧
      (partition_by_coordinates samplePlaysMixed).2 ≠ [] ∧
      ([3] : Exchanges) ≠ [] ∧ sampleEnded.has_ended = true ∧
      ([3] : Exchanges).filter (fun i => sampleEnded.hand.length ≤ i) ≠ [])
    ∧ (∃ E, sampleFirst.check_plays samplePlaysMixed = .error E ∧
        FirstPlayError.indexes_out_of_bounds
          (indexesOutOfBoundsOf sampleFirst.hand.length samplePlaysMixed) ∈ E ∧
        FirstPlayError.coordinates_out_of_bounds
          ((partition_by_coordinates samplePlaysMixed).2) ∈ E)
    ∧ (∃ E, sampleEnded.check_exchanges [3] = .error E ∧
        NextExchangeError.has_ended ∈ E ∧
        NextExchangeError.indexes_out_of_bounds
          (([3] : Exchanges).filter (fun i => sampleEnded.hand.length ≤ i))
          sampleEnded.hand.length ∈ E) :=
  ⟨by refine ⟨by decide, by decide, by decide, by decide, by decide, by decide⟩,
   (validation_accumulates_all_violations sampleFirst sampleEnded samplePlaysMixed [3]).1
     (by decide) (by decide) (by decide),
   (validation_accumulates_all_violations sampleFirst sampleEnded samplePlaysMixed [3]).2
     (by decide) (by decide) (by decide)⟩

/-- A line whose tile values are pairwise distinct puts at most one coordinate
in each tile group. -/
theorem filter_tile_length_le_one (line : Board)
    (hdup : (line.map Prod.snd).Nodup) (t : Tile) :
    (line.filter (fun e => e.2 = t)).length ≤ 1 := by
  induction line with
  | nil => simp
  | cons e rest ih =>
    simp only [List.map_cons, List.nodup_cons] at hdup
    by_cases he : e.2 = t
    · rw [List.filter_cons_of_pos (by simpa using he)]
      have hrest : rest.filter (fun f => decide (f.2 = t)) = [] := by
        rw [List.filter_eq_nil_iff]
        intro f hf
        simp only [decide_eq_true_eq]
        intro hft
        exact hdup.1 (by rw [← hft] at he; exact he ▸ List.mem_map_of_mem Prod.snd hf)
      simp [hrest]
    · rw [List.filter_cons_of_neg (by simpa using he)]
      exact ih hdup.2

/-- A line without duplicate tile values has no duplicate groups. -/
theorem dup_groups_eq_empty (line : Board)
    (hdup : (line.map Prod.snd).Nodup) : dup_groups line = ∅ := by
  unfold dup_groups
  rw [Finset.filter_eq_empty_iff.mpr, Finset.image_empty]
  intro t ht
  have h1 := filter_tile_length_le_one line hdup t
  have h2 : (tileGroup line t).card ≤ 1 := by
    unfold tileGroup
    calc ((line.filter (fun e => e.2 = t)).map Prod.fst).toFinset.card
        ≤ ((line.filter (fun e => e.2 = t)).map Prod.fst).length :=
          (line.filter (fun e => e.2 = t)).map Prod.fst |>.toFinset_card_le
      _ = (line.filter (fun e => e.2 = t)).length := List.length_map _ _
      _ ≤ 1 := h1
  simp only [not_lt]
  exact h2

/-- C6: for every line without duplicate tiles and without multiple surviving
matching groups, `check_line` returns `Ok` with points equal to the line
length, plus the full-match bonus exactly when the length equals the full
color count and the line is a color-only line (non-empty surviving shape
groups), or the length equals the full shape count; in particular every line
of length 0 or 1 is legal and worth its length with no bonus. -/
theorem check_line_legal_points (line : Board)
    (_hkeys : (line.map Prod.fst).Nodup)
    (hdup : (line.map Prod.snd).Nodup)
    (hone : (matching_colors line).card + (matching_shapes line).card ≤ 1) :
    (check_line line = .ok (line.length +
      (if (matching_shapes line ≠ ∅ ∧ line.length = COLORS_LEN) ∨
          line.length = SHAPES_LEN then FULL_MATCH_BONUS else 0)))
    ∧ check_line ([] : Board) = .ok 0
    ∧ (∀ c t, check_line [(c, t)] = .ok 1) := by
  refine ⟨?_, by decide, ?_⟩
  · unfold check_line
    dsimp only
    rw [if_neg (by omega)]
    rw [if_neg (by simp [dup_groups_eq_empty line hdup])]
    split
    · rfl
    · simp
  · intro c t
    simp [check_line, dup_groups, matching_colors, matching_shapes, lineTiles,
      lineColors, lineShapes, tileGroup, colorGroup, shapeGroup,
      Finset.filter_singleton, COLORS_LEN, SHAPES_LEN]

/-- Witness for C6 at a concrete input: a two-tile single-color line scores
its length without bonus. -/
theorem check_line_legal_points_witness :
    ((sampleLine.map Prod.fst).Nodup ∧ (sampleLine.map Prod.snd).Nodup ∧
      (matching_colors sampleLine).card + (matching_shapes sampleLine).card ≤ 1)
    ∧ ((check_line sampleLine = .ok (sampleLine.length +
        (if (matching_shapes sampleLine ≠ ∅ ∧ sampleLine.length = COLORS_LEN) ∨
            sampleLine.length = SHAPES_LEN then FULL_MATCH_BONUS else 0)))
      ∧ check_line ([] : Board) = .ok 0
      ∧ (∀ c t, check_line [(c, t)] = .ok 1)) :=
  ⟨⟨by decide, by decide, by decide⟩,
   check_line_legal_points sampleLine (by decide) (by decide) (by decide)⟩

/-- The component bounds of a list of coordinates exist exactly for non-empty
lists. -/
theorem find_bounds_eq_none_iff (cs : List Coordinate) :
    find_component_minimums_and_maximums cs = none ↔ cs = [] := by
  cases cs with
  | nil => simp [find_component_minimums_and_maximums]
  | cons c rest =>
    obtain ⟨cx, cy⟩ := c
    simp [find_component_minimums_and_maximums]

/-- `NextState::has_ended` holds exactly when the current player's hand is
empty or the board is a `TILES_LEN`-tile compact rectangle. -/
theorem has_ended_iff (s : NextState) :
    s.has_ended = true ↔
      (s.hand = [] ∨ (s.board.length = TILES_LEN ∧ fullRectangle s.board)) := by
  unfold NextState.has_ended NextState.hand fullRectangle
  split
  · rename_i hemp
    simp only [List.isEmpty_iff] at hemp
    simp only [true_iff]
    exact Or.inl hemp
  · rename_i hemp
    simp only [List.isEmpty_iff] at hemp
    split
    · rename_i hlen
      simp only [Bool.false_eq_true, false_iff]
      rintro (hc | ⟨hc, -⟩)
      · exact hemp hc
      · exact hlen hc
    · rename_i hlen
      push_neg at hlen
      split
      · rename_i heqnone
        exfalso
        have hnil := (find_bounds_eq_none_iff _).mp heqnone
        rw [List.map_eq_nil_iff] at hnil
        rw [hnil] at hlen
        simp [TILES_LEN, COLORS_LEN, SHAPES_LEN] at hlen
      · rename_i b minX minY maxX maxY heqsome
        simp only [decide_eq_true_eq, hemp, hlen, heqsome, Option.some.injEq,
          false_or, true_and]
        constructor
        · intro hc
          exact ⟨(minX, minY, maxX, maxY), rfl, hc⟩
        · rintro ⟨b', hb', hc⟩
          obtain rfl : (minX, minY, maxX, maxY) = b' := hb'
          exact hc

/-- C3: a successful `NextState::next_play` produces a terminal `LastState`
rather than another `NextState` if and only if, after applying the play, the
acting player's hand is empty or the board holds exactly
`COLORS_LEN * SHAPES_LEN` tiles forming a compact rectangle; in exactly that
case the fixed `LAST_PLAY_BONUS` is added to that turn's points of the acting
player, which otherwise receives the turn's points alone. -/
theorem next_play_terminal_rule (s : NextState) (p : Plays)
    (r : NextState ⊕ LastState) (h : s.next_play p = .ok r) :
    ((∃ ls, r = .inr ls) ↔
      ((s.apply_plays p).hand = [] ∨
        ((s.apply_plays p).board.length = TILES_LEN ∧
          fullRectangle (s.apply_plays p).board)))
    ∧ (∀ ls, r = Sum.inr ls →
        ∃ pts, s.check_plays p = .ok pts ∧
          ls.points = (s.apply_plays p).points.set s.current_player
            ((s.apply_plays p).points.getD s.current_player 0 + pts + LAST_PLAY_BONUS))
    ∧ (∀ ns, r = Sum.inl ns →
        ∃ pts, s.check_plays p = .ok pts ∧
          ns.points = (s.apply_plays p).points.set s.current_player
            ((s.apply_plays p).points.getD s.current_player 0 + pts)) := by
  have hcp : (s.apply_plays p).current_player = s.current_player := rfl
  unfold NextState.next_play at h
  split at h
  · simp at h
  · rename_i pts hok
    dsimp only at h
    split at h
    · rename_i hend
      simp only [Except.ok.injEq] at h
      subst h
      refine ⟨?_, ?_, ?_⟩
      · constructor
        · intro _
          exact (has_ended_iff _).mp hend
        · intro _
          exact ⟨_, rfl⟩
      · intro ls hls
        simp only [Sum.inr.injEq] at hls
        subst hls
        exact ⟨pts, hok, by rw [← hcp]⟩
      · intro ns hns
        simp at hns
    · rename_i hend
      simp only [Except.ok.injEq] at h
      subst h
      refine ⟨?_, ?_, ?_⟩
      · constructor
        · rintro ⟨ls, hls⟩
          simp at hls
        · intro hc
          exact absurd ((has_ended_iff _).mpr hc) hend
      · intro ls hls
        simp at hls
      · intro ns hns
        simp only [Sum.inl.injEq] at hns
        subst hns
        exact ⟨pts, hok, by rw [← hcp]⟩

/-- Witness for C3 at a concrete input: playing the hand's single tile
adjacent to the board empties the hand and ends the game. -/
theorem next_play_terminal_rule_witness :
    sampleNext.next_play samplePlaysAdj = .ok (.inr sampleLast)
    ∧ (((∃ ls, (Sum.inr sampleLast : NextState ⊕ LastState) = .inr ls) ↔
        ((sampleNext.apply_plays samplePlaysAdj).hand = [] ∨
          ((sampleNext.apply_plays samplePlaysAdj).board.length = TILES_LEN ∧
            fullRectangle (sampleNext.apply_plays samplePlaysAdj).board)))
      ∧ (∀ ls, (Sum.inr sampleLast : NextState ⊕ LastState) = Sum.inr ls →
          ∃ pts, sampleNext.check_plays samplePlaysAdj = .ok pts ∧
            ls.points = (sampleNext.apply_plays samplePlaysAdj).points.set
              sampleNext.current_player
              ((sampleNext.apply_plays samplePlaysAdj).points.getD
                sampleNext.current_player 0 + pts + LAST_PLAY_BONUS))
      ∧ (∀ ns, (Sum.inr sampleLast : NextState ⊕ LastState) = Sum.inl ns →
          ∃ pts, sampleNext.check_plays samplePlaysAdj = .ok pts ∧
            ns.points = (sampleNext.apply_plays samplePlaysAdj).points.set
              sampleNext.current_player
              ((sampleNext.apply_plays samplePlaysAdj).points.getD
                sampleNext.current_player 0 + pts))) :=
  ⟨by decide,
   next_play_terminal_rule sampleNext samplePlaysAdj (.inr sampleLast) (by decide)⟩

theorem ite_insert_eq_empty_parts {α : Type} [DecidableEq α] {c : Prop}
    [Decidable c] {x : α} {t : Finset α}
    (h : (if c then insert x t else t) = ∅) : ¬c ∧ t = ∅ := by
  split at h
  · exact absurd h (Finset.insert_ne_empty _ _)
  · exact ⟨by assumption, h⟩

theorem ite_singleton_eq_empty_not {α : Type} [DecidableEq α] {c : Prop}
    [Decidable c] {x : α} (h : (if c then ({x} : Finset α) else ∅) = ∅) :
    ¬c := by
  split at h
  · exact absurd h (Finset.singleton_ne_empty _)
  · assumption

/-- An empty accumulated error set of `FirstState::check_plays` means no
out-of-bounds index and no out-of-bounds coordinate. -/
theorem FirstState.first_accumulated_empty_parts (s : FirstState) (p : Plays)
    (h : s.accumulated_errors p = ∅) :
    indexesOutOfBoundsOf s.hand.length p = [] ∧
      (partition_by_coordinates p).2 = [] := by
  unfold FirstState.accumulated_errors at h
  dsimp only at h
  obtain ⟨-, h⟩ := ite_insert_eq_empty_parts h
  obtain ⟨-, h⟩ := ite_insert_eq_empty_parts h
  obtain ⟨hco, h⟩ := ite_insert_eq_empty_parts h
  exact ⟨not_not.mp (ite_singleton_eq_empty_not h), not_not.mp hco⟩

theorem foldl_snd_superset {α β γ : Type} [DecidableEq α]
    (step : γ × Finset α → β → γ × Finset α)
    (hmono : ∀ a b, a.2 ⊆ (step a b).2) (l : List β) :
    ∀ init, init.2 ⊆ (l.foldl step init).2 := by
  induction l with
  | nil => exact fun init => Finset.Subset.refl _
  | cons b rest ih =>
    intro init
    exact Finset.Subset.trans (hmono init b) (ih (step init b))

theorem foldl_snd_empty {α β γ : Type} [DecidableEq α]
    (step : γ × Finset α → β → γ × Finset α)
    (hmono : ∀ a b, a.2 ⊆ (step a b).2) (l : List β) (init : γ × Finset α)
    (h : (l.foldl step init).2 = ∅) : init.2 = ∅ :=
  Finset.subset_empty.mp (h ▸ foldl_snd_superset step hmono l init)

/-- A successful `NextState::check_plays` accumulated no error in its first
five checks. -/
theorem NextState.next_check_ok_accumulated (s : NextState) (p : Plays) (pts : Nat)
    (h : s.check_plays p = .ok pts) : s.accumulated_errors p = ∅ := by
  unfold NextState.check_plays at h
  split at h
  · simp at h
  · dsimp only at h
    split at h
    · simp at h
    · split at h
      · simp at h
      · split at h
        · simp at h
        · obtain ⟨hguard, -⟩ := except_ite_ok h
          refine ite_insert_eq_empty (foldl_snd_empty _ ?_ _ _ (not_not.mp hguard))
          intro a b
          dsimp only
          cases hcl : check_line b with
          | error de =>
            simp only [hcl]
            exact (subset_ite_insert _ _ _).trans (subset_ite_insert _ _ _)
          | ok q =>
            simp only [hcl]
            exact Finset.Subset.refl _

/-- An empty accumulated error set of `NextState::check_plays` means no
out-of-bounds index, no out-of-bounds coordinate, no occupied coordinate and
no unconnected play. -/
theorem NextState.next_accumulated_empty_parts (s : NextState) (p : Plays)
    (h : s.accumulated_errors p = ∅) :
    indexesOutOfBoundsOf s.hand.length p = [] ∧
      (partition_by_coordinates p).2 = [] ∧
      (s.unoccupied_and_occupied p).2 = [] ∧
      (s.partition_connected (s.unoccupied_and_occupied p).1).2 = [] := by
  unfold NextState.accumulated_errors at h
  dsimp only at h
  obtain ⟨hnc, h⟩ := ite_insert_eq_empty_parts h
  obtain ⟨hoc, h⟩ := ite_insert_eq_empty_parts h
  obtain ⟨hco, h⟩ := ite_insert_eq_empty_parts h
  exact ⟨not_not.mp (ite_singleton_eq_empty_not h), not_not.mp hco,
    not_not.mp hoc, not_not.mp hnc⟩

/-- The removal loop of `removePlayed`, fed descending in-bounds indexes,
shrinks the hand by one per play, grows the collected board by one per play,
and collects exactly the play coordinates as board keys. -/
theorem removePlayed_foldl_facts (l : Plays) :
    ∀ (hand : Hand) (b0 : Board),
      List.Pairwise (fun a b : Nat × Coordinate => b.1 < a.1) l →
      (∀ e ∈ l, e.1 < hand.length) →
      (l.foldl (fun acc e =>
          (acc.1 ++ [(e.2, acc.2.getD e.1 defaultTile)], acc.2.eraseIdx e.1))
        (b0, hand)).2.length + l.length = hand.length ∧
      (l.foldl (fun acc e =>
          (acc.1 ++ [(e.2, acc.2.getD e.1 defaultTile)], acc.2.eraseIdx e.1))
        (b0, hand)).1.map Prod.fst = b0.map Prod.fst ++ l.map Prod.snd := by
  induction l with
  | nil => simp
  | cons e rest ih =>
    intro hand b0 hdesc hlt
    have he : e.1 < hand.length := hlt e (List.mem_cons_self e rest)
    have herase : (hand.eraseIdx e.1).length = hand.length - 1 := by
      rw [List.length_eraseIdx]
      simp [he]
    have hdesc' := (List.pairwise_cons.mp hdesc).2
    have hhead := (List.pairwise_cons.mp hdesc).1
    have hlt' : ∀ f ∈ rest, f.1 < (hand.eraseIdx e.1).length := by
      intro f hf
      have h1 : f.1 < e.1 := hhead f hf
      omega
    obtain ⟨ih1, ih2⟩ := ih (hand.eraseIdx e.1)
      (b0 ++ [(e.2, hand.getD e.1 defaultTile)]) hdesc' hlt'
    constructor
    · simp only [List.foldl_cons, List.length_cons]
      omega
    · simp only [List.foldl_cons, ih2, List.map_append, List.map_cons, List.map_nil]
      simp

/-- The removal loop of `removeExchanged`, fed descending in-bounds indexes,
shrinks the hand by one per exchange and collects one removed tile per
exchange. -/
theorem removeExchanged_foldl_facts (l : List Nat) :
    ∀ (hand : Hand) (t0 : List Tile),
      List.Pairwise (fun a b : Nat => b < a) l →
      (∀ i ∈ l, i < hand.length) →
      (l.foldl (fun acc i => (acc.1 ++ [acc.2.getD i defaultTile], acc.2.eraseIdx i))
        (t0, hand)).2.length + l.length = hand.length ∧
      (l.foldl (fun acc i => (acc.1 ++ [acc.2.getD i defaultTile], acc.2.eraseIdx i))
        (t0, hand)).1.length = t0.length + l.length := by
  induction l with
  | nil => simp
  | cons i rest ih =>
    intro hand t0 hdesc hlt
    have hi : i < hand.length := hlt i (List.mem_cons_self i rest)
    have herase : (hand.eraseIdx i).length = hand.length - 1 := by
      rw [List.length_eraseIdx]
      simp [hi]
    have hdesc' := (List.pairwise_cons.mp hdesc).2
    have hhead := (List.pairwise_cons.mp hdesc).1
    have hlt' : ∀ j ∈ rest, j < (hand.eraseIdx i).length := by
      intro j hj
      have h1 : j < i := hhead j hj
      omega
    obtain ⟨ih1, ih2⟩ := ih (hand.eraseIdx i)
      (t0 ++ [hand.getD i defaultTile]) hdesc' hlt'
    constructor
    · simp only [List.foldl_cons, List.length_cons]
      omega
    · simp only [List.foldl_cons, List.length_cons] at ih2 ⊢
      simp only [List.length_append, List.length_cons, List.length_nil] at ih2
      omega

/-- Setting one hand changes the hands total by the length difference. -/
theorem handsTotal_set (hs : List Hand) :
    ∀ (i : Nat) (h : Hand), i < hs.length →
      handsTotal (hs.set i h) + (hs.getD i []).length = handsTotal hs + h.length := by
  induction hs with
  | nil => intro i h hi; simp at hi
  | cons a rest ih =>
    intro i h hi
    cases i with
    | zero =>
      simp only [List.set, handsTotal, List.map_cons, List.sum_cons, List.getD_cons_zero]
      omega
    | succ n =>
      simp only [List.set, handsTotal, List.map_cons, List.sum_cons, List.getD_cons_succ]
      have := ih n h (by simpa using Nat.lt_of_succ_lt_succ hi)
      unfold handsTotal at this
      omega

/-- `Vec::swap` keeps the length of the bag. -/
theorem swapIdx_length (l : List Tile) (i j : Nat) :
    (swapIdx l i j).length = l.length := by
  unfold swapIdx
  split
  · simp
  · rfl

/-- The in-place shuffle loop of `next_exchange` keeps the length of the
bag. -/
theorem shuffle_foldl_length (ns : List Nat) (g1 g2 : Nat → Nat) :
    ∀ l : List Tile,
      (ns.foldl (fun b n => swapIdx b (g1 n) (g2 n)) l).length = l.length := by
  induction ns with
  | nil => intro l; rfl
  | cons n rest ih =>
    intro l
    simp only [List.foldl_cons]
    rw [ih, swapIdx_length]

/-- Extending the board with fresh, pairwise distinct keys grows it by one
entry per key. -/
theorem extendBoard_length_fresh (entries : Board) :
    ∀ b : Board, (∀ e ∈ entries, boardContains b e.1 = false) →
      (entries.map Prod.fst).Nodup →
      (extendBoard b entries).length = b.length + entries.length := by
  induction entries with
  | nil => intro b _ _; rfl
  | cons e rest ih =>
    intro b hfresh hnodup
    have hb : boardContains b e.1 = false := hfresh e (List.mem_cons_self e rest)
    have hins : insertBoard b e.1 e.2 = b ++ [(e.1, e.2)] := by
      unfold insertBoard
      rw [if_neg]
      unfold boardContains at hb
      simp [hb]
    simp only [List.map_cons, List.nodup_cons] at hnodup
    have hfresh' : ∀ f ∈ rest, boardContains (b ++ [(e.1, e.2)]) f.1 = false := by
      intro f hf
      have h1 : boardContains b f.1 = false := hfresh f (List.mem_cons_of_mem e hf)
      have h2 : e.1 ≠ f.1 := by
        intro hcontra
        exact hnodup.1 (hcontra ▸ List.mem_map_of_mem Prod.fst hf)
      unfold boardContains at h1 ⊢
      simp only [List.any_append, Bool.or_eq_false_iff]
      refine ⟨h1, ?_⟩
      simp [h2]
    have := ih (b ++ [(e.1, e.2)]) hfresh' hnodup.2
    simp only [extendBoard, List.foldl_cons] at this ⊢
    rw [hins, this]
    simp only [List.length_append, List.length_cons, List.length_nil]
    omega

/-- A successful `NextState::check_plays` leaves every play index within the
hand and every play coordinate unoccupied. -/
theorem NextState.next_check_ok_facts (s : NextState) (p : Plays) (pts : Nat)
    (h : s.check_plays p = .ok pts) :
    (∀ e ∈ p, e.1 < s.hand.length) ∧
    (∀ e ∈ p, boardContains s.board e.2 = false) := by
  obtain ⟨hidx, hco, hocc, -⟩ :=
    s.next_accumulated_empty_parts p (s.next_check_ok_accumulated p pts h)
  have hin : ∀ e ∈ p, inCoordinateLimit e.2 = true := by
    intro e he
    by_contra hbad
    have hmem : e ∈ (partition_by_coordinates p).2 := by
      simp only [partition_by_coordinates, List.mem_filter, Bool.not_eq_true] at hbad ⊢
      exact ⟨he, by simp [hbad]⟩
    rw [hco] at hmem
    simp at hmem
  constructor
  · intro e he
    by_contra hlt
    push_neg at hlt
    have hmem : e ∈ indexesOutOfBoundsOf s.hand.length p := by
      simp only [indexesOutOfBoundsOf, List.mem_filter, decide_eq_true_eq]
      exact ⟨he, hlt⟩
    rw [hidx] at hmem
    simp at hmem
  · intro e he
    have hein : e ∈ (partition_by_coordinates p).1 := by
      simp only [partition_by_coordinates, List.mem_filter]
      exact ⟨he, hin e he⟩
    by_contra hocc'
    have hmem : e ∈ (s.unoccupied_and_occupied p).2 := by
      simp only [NextState.unoccupied_and_occupied, List.partition_eq_filter_filter,
        List.mem_filter]
      refine ⟨hein, ?_⟩
      have hbt : boardContains s.board e.2 = true := by
        cases hb : boardContains s.board e.2
        · exact absurd hb hocc'
        · rfl
      simp [hbt]
    rw [hocc] at hmem
    simp at hmem

/-- A successful `FirstState::check_plays` leaves every play index within the
hand. -/
theorem FirstState.first_check_ok_facts (s : FirstState) (p : Plays) (pts : Nat)
    (h : s.check_plays p = .ok pts) :
    ∀ e ∈ p, e.1 < s.hand.length := by
  obtain ⟨hidx, -⟩ := s.first_accumulated_empty_parts p (s.first_check_ok_accumulated p pts h)
  intro e he
  by_contra hlt
  push_neg at hlt
  have hmem : e ∈ indexesOutOfBoundsOf s.hand.length p := by
    simp only [indexesOutOfBoundsOf, List.mem_filter, decide_eq_true_eq]
    exact ⟨he, hlt⟩
  rw [hidx] at hmem
  simp at hmem

/-- A successful `FirstState::first_play` conserves the total tile count:
the new bag, hands and board hold exactly the tiles of the old bag and
hands. -/
theorem first_play_conserves (fs : FirstState) (p : Plays) (hp : PlaysWF p)
    (hcp : fs.current_player < fs.hands.length) (ns : NextState)
    (hns : fs.first_play p = .ok ns) :
    ns.bag.length + handsTotal ns.hands + ns.board.length =
      fs.bag.length + handsTotal fs.hands := by
  unfold FirstState.first_play at hns
  split at hns
  · simp at hns
  · rename_i pts hok
    dsimp only at hns
    simp only [Except.ok.injEq] at hns
    subst hns
    have hallidx := fs.first_check_ok_facts p pts hok
    have hdesc : List.Pairwise (fun a b : Nat × Coordinate => b.1 < a.1) p.reverse := by
      rw [List.pairwise_reverse]
      exact List.pairwise_map.mp hp.1
    have hltrev : ∀ e ∈ p.reverse, e.1 < fs.hand.length := by
      intro e he
      exact hallidx e (List.mem_reverse.mp he)
    obtain ⟨hr1, hr2⟩ := removePlayed_foldl_facts p.reverse fs.hand [] hdesc hltrev
    have hblen : (removePlayed fs.hand p).1.length = p.length := by
      unfold removePlayed
      have hml := congrArg List.length hr2
      simp only [List.length_map, List.length_append, List.length_nil,
        List.length_reverse] at hml
      simpa using hml
    have hset := handsTotal_set fs.hands fs.current_player
      ((removePlayed fs.hand p).2 ++
        fs.bag.drop (fs.bag.length - p.length)) hcp
    have hr1' : (removePlayed fs.hand p).2.length + p.length = fs.hand.length := by
      unfold removePlayed
      rw [← List.length_reverse p]
      exact hr1
    have hhand : fs.hand = fs.hands.getD fs.current_player [] := rfl
    dsimp only
    rw [List.length_take]
    simp only [List.length_append, List.length_drop] at hset ⊢
    rw [← hhand] at hset
    omega

/-- The state mutation of a validated `NextState::next_play` conserves the
total tile count, and leaves `bag length - plays length` tiles in the bag. -/
theorem apply_plays_total (s : NextState) (q : Plays) (hq : PlaysWF q)
    (hcp : s.current_player < s.hands.length) (pts : Nat)
    (hok : s.check_plays q = .ok pts) :
    (s.apply_plays q).bag.length + handsTotal (s.apply_plays q).hands +
        (s.apply_plays q).board.length =
      s.bag.length + handsTotal s.hands + s.board.length ∧
    (s.apply_plays q).bag.length = s.bag.length - q.length := by
  obtain ⟨hallidx, hunocc⟩ := s.next_check_ok_facts q pts hok
  have hdesc : List.Pairwise (fun a b : Nat × Coordinate => b.1 < a.1) q.reverse := by
    rw [List.pairwise_reverse]
    exact List.pairwise_map.mp hq.1
  have hltrev : ∀ e ∈ q.reverse, e.1 < s.hand.length := by
    intro e he
    exact hallidx e (List.mem_reverse.mp he)
  obtain ⟨hr1, hr2⟩ := removePlayed_foldl_facts q.reverse s.hand [] hdesc hltrev
  have hkeys : (removePlayed s.hand q).1.map Prod.fst = (q.map Prod.snd).reverse := by
    unfold removePlayed
    rw [hr2]
    simp [List.map_reverse]
  have hblen : (removePlayed s.hand q).1.length = q.length := by
    have hml := congrArg List.length hkeys
    simp only [List.length_map, List.length_reverse] at hml
    exact hml
  have hfresh : ∀ f ∈ (removePlayed s.hand q).1, boardContains s.board f.1 = false := by
    intro f hf
    have hf1 : f.1 ∈ (removePlayed s.hand q).1.map Prod.fst :=
      List.mem_map_of_mem Prod.fst hf
    rw [hkeys, List.mem_reverse] at hf1
    obtain ⟨e, he, heq⟩ := List.mem_map.mp hf1
    exact heq ▸ hunocc e he
  have hnodup : ((removePlayed s.hand q).1.map Prod.fst).Nodup := by
    rw [hkeys]
    exact List.nodup_reverse.mpr hq.2
  have hext := extendBoard_length_fresh (removePlayed s.hand q).1 s.board hfresh hnodup
  have hr1' : (removePlayed s.hand q).2.length + q.length = s.hand.length := by
    unfold removePlayed
    rw [← List.length_reverse q]
    exact hr1
  have hset := handsTotal_set s.hands s.current_player
    ((removePlayed s.hand q).2 ++ s.bag.drop (s.bag.length - q.length)) hcp
  have hhand : s.hand = s.hands.getD s.current_player [] := rfl
  rw [← hhand] at hset
  unfold NextState.apply_plays
  dsimp only
  rw [List.length_take]
  simp only [List.length_append, List.length_drop] at hset ⊢
  constructor
  · rw [hext, hblen]
    omega
  · omega

/-- A successful `NextState::check_exchanges` means: some exchange, every
exchanged index within the hand, and at least as many bag tiles as
exchanges. -/
theorem NextState.check_exchanges_ok_facts (s : NextState) (ex : Exchanges)
    (h : s.check_exchanges ex = .ok ()) :
    ex ≠ [] ∧ (∀ i ∈ ex, i < s.hand.length) ∧ ex.length ≤ s.bag.length := by
  unfold NextState.check_exchanges at h
  dsimp only at h
  by_cases hexne : ex = []
  · rw [if_pos hexne] at h
    simp at h
  · rw [if_neg hexne] at h
    obtain ⟨hguard, -⟩ := except_ite_ok h
    have hempty := not_not.mp hguard
    have hparts : ¬(ex.filter (fun i => decide (i < s.hand.length))).length = 0 ∧
        ¬s.bag.length < (ex.filter (fun i => decide (i < s.hand.length))).length ∧
        ex.filter (fun i => decide (s.hand.length ≤ i)) = [] := by
      by_cases h0 : (ex.filter (fun i => decide (i < s.hand.length))).length = 0
      · rw [if_pos h0] at hempty
        exact absurd hempty (Finset.insert_ne_empty _ _)
      · rw [if_neg h0] at hempty
        by_cases h1 : s.bag.length <
            (ex.filter (fun i => decide (i < s.hand.length))).length
        · rw [if_pos h1] at hempty
          exact absurd hempty (Finset.insert_ne_empty _ _)
        · rw [if_neg h1] at hempty
          obtain ⟨hil, -⟩ := ite_insert_eq_empty_parts hempty
          exact ⟨h0, h1, not_not.mp hil⟩
    obtain ⟨hlegal0, hbag, hillegal⟩ := hparts
    have hall : ∀ i ∈ ex, i < s.hand.length := by
      intro i hi
      by_contra hge
      push_neg at hge
      have hmem : i ∈ ex.filter (fun i => decide (s.hand.length ≤ i)) := by
        simp only [List.mem_filter, decide_eq_true_eq]
        exact ⟨hi, hge⟩
      rw [hillegal] at hmem
      simp at hmem
    have hfilter : ex.filter (fun i => decide (i < s.hand.length)) = ex := by
      rw [List.filter_eq_self]
      intro i hi
      simp only [decide_eq_true_eq]
      exact hall i hi
    rw [hfilter] at hbag
    exact ⟨hexne, hall, by omega⟩

/-- A successful `NextState::next_exchange` conserves the total tile count. -/
theorem next_exchange_conserves (s : NextState) (ex : Exchanges)
    (rng : Nat → Nat) (hex : ExchangesWF ex)
    (hcp : s.current_player < s.hands.length) (ns : NextState)
    (hns : s.next_exchange ex rng = .ok ns) :
    ns.bag.length + handsTotal ns.hands + ns.board.length =
      s.bag.length + handsTotal s.hands + s.board.length := by
  unfold NextState.next_exchange at hns
  split at hns
  · simp at hns
  · rename_i u hok
    dsimp only at hns
    simp only [Except.ok.injEq] at hns
    subst hns
    obtain ⟨-, hall, hbag⟩ := s.check_exchanges_ok_facts ex (by
      cases u
      exact hok)
    have hdesc : List.Pairwise (fun a b : Nat => b < a) ex.reverse := by
      rw [List.pairwise_reverse]
      exact hex
    have hltrev : ∀ i ∈ ex.reverse, i < s.hand.length := by
      intro i hi
      exact hall i (List.mem_reverse.mp hi)
    obtain ⟨hr1, hr2⟩ := removeExchanged_foldl_facts ex.reverse s.hand [] hdesc hltrev
    have hr1' : (removeExchanged s.hand ex).2.length + ex.length = s.hand.length := by
      unfold removeExchanged
      rw [← List.length_reverse ex]
      exact hr1
    have hr2' : (removeExchanged s.hand ex).1.length = ex.length := by
      unfold removeExchanged
      rw [← List.length_reverse ex]
      simpa using hr2
    have hset := handsTotal_set s.hands s.current_player
      ((removeExchanged s.hand ex).2 ++ s.bag.drop (s.bag.length - ex.length)) hcp
    have hhand : s.hand = s.hands.getD s.current_player [] := rfl
    rw [← hhand] at hset
    dsimp only
    rw [shuffle_foldl_length]
    simp only [List.length_append, List.length_take, List.length_drop] at hset ⊢
    rw [hr2']
    omega

/-- C2 (amended): the total tile count is conserved by every successful
`first_play`, by every successful `next_play` that produces an ongoing state,
and by every successful `next_exchange`; a terminal `next_play` conserves the
total only together with the leftover bag (of size `bag length - plays
length`) that is discarded with the terminal state, the terminal state itself
keeping `hands + board` tiles. -/
theorem tile_conservation (fs : FirstState) (s : NextState) (p q : Plays)
    (ex : Exchanges) (rng : Nat → Nat)
    (hp : PlaysWF p) (hq : PlaysWF q) (hex : ExchangesWF ex)
    (hfcp : fs.current_player < fs.hands.length)
    (hncp : s.current_player < s.hands.length) :
    (∀ ns, fs.first_play p = .ok ns →
      ns.bag.length + handsTotal ns.hands + ns.board.length =
        fs.bag.length + handsTotal fs.hands)
    ∧ (∀ ns, s.next_play q = .ok (.inl ns) →
        ns.bag.length + handsTotal ns.hands + ns.board.length =
          s.bag.length + handsTotal s.hands + s.board.length)
    ∧ (∀ ls, s.next_play q = .ok (.inr ls) →
        handsTotal ls.hands + ls.board.length + (s.bag.length - q.length) =
          s.bag.length + handsTotal s.hands + s.board.length)
    ∧ (∀ ns, s.next_exchange ex rng = .ok ns →
        ns.bag.length + handsTotal ns.hands + ns.board.length =
          s.bag.length + handsTotal s.hands + s.board.length) := by
  refine ⟨?_, ?_, ?_, ?_⟩
  · intro ns hns
    exact first_play_conserves fs p hp hfcp ns hns
  · intro ns hns
    unfold NextState.next_play at hns
    split at hns
    · simp at hns
    · rename_i pts hok
      dsimp only at hns
      split at hns
      · simp at hns
      · simp only [Except.ok.injEq, Sum.inl.injEq] at hns
        subst hns
        obtain ⟨htot, -⟩ := apply_plays_total s q hq hncp pts hok
        exact htot
  · intro ls hls
    unfold NextState.next_play at hls
    split at hls
    · simp at hls
    · rename_i pts hok
      dsimp only at hls
      split at hls
      · simp only [Except.ok.injEq, Sum.inr.injEq] at hls
        subst hls
        obtain ⟨htot, hleft⟩ := apply_plays_total s q hq hncp pts hok
        dsimp only
        omega
      · simp at hls
  · intro ns hns
    exact next_exchange_conserves s ex rng hex hncp ns hns

/-- Witness for C2 at concrete inputs. -/
theorem tile_conservation_witness :
    (PlaysWF samplePlaysOffOrigin ∧ PlaysWF samplePlaysAdj ∧
      ExchangesWF [0] ∧ sampleFirst.current_player < sampleFirst.hands.length ∧
      sampleNext.current_player < sampleNext.hands.length)
    ∧ ((∀ ns, sampleFirst.first_play samplePlaysOffOrigin = .ok ns →
        ns.bag.length + handsTotal ns.hands + ns.board.length =
          sampleFirst.bag.length + handsTotal sampleFirst.hands)
      ∧ (∀ ns, sampleNext.next_play samplePlaysAdj = .ok (.inl ns) →
          ns.bag.length + handsTotal ns.hands + ns.board.length =
            sampleNext.bag.length + handsTotal sampleNext.hands +
              sampleNext.board.length)
      ∧ (∀ ls, sampleNext.next_play samplePlaysAdj = .ok (.inr ls) →
          handsTotal ls.hands + ls.board.length +
              (sampleNext.bag.length - samplePlaysAdj.length) =
            sampleNext.bag.length + handsTotal sampleNext.hands +
              sampleNext.board.length)
      ∧ (∀ ns, sampleNext.next_exchange [0] sampleRng = .ok ns →
          ns.bag.length + handsTotal ns.hands + ns.board.length =
            sampleNext.bag.length + handsTotal sampleNext.hands +
              sampleNext.board.length)) :=
  ⟨⟨by decide, by decide, by decide, by decide, by decide⟩,
   tile_conservation sampleFirst sampleNext samplePlaysOffOrigin samplePlaysAdj
     [0] sampleRng (by decide) (by decide) (by decide) (by decide) (by decide)⟩

set_option maxRecDepth 10000 in
/-- Counterexample to C2 as stated: completing the deadlock rectangle from a
two-tile bag is a successful `next_play` that produces a terminal state, yet
the bag, hand and board tiles drop from 38 to 37 because the terminal state
discards the leftover bag tile. -/
theorem tile_conservation_counterexample :
    PlaysWF deadlockPlays ∧
    deadlockState.current_player < deadlockState.hands.length ∧
    isTerminalOk (deadlockState.next_play deadlockPlays) = true ∧
    resultTotal (deadlockState.next_play deadlockPlays) = some 37 ∧
    deadlockState.bag.length + handsTotal deadlockState.hands +
      deadlockState.board.length = 38 :=
  ⟨by decide, by decide, by decide, by decide, by decide⟩


/-- Counting after a single `List.set`: setting index `i` to `x` removes one
occurrence of the old entry and adds one occurrence of `x`. -/
theorem count_set_tile {α : Type} [DecidableEq α] (l : List α) :
    ∀ (i : Nat) (hi : i < l.length) (x t : α),
      @List.count α instBEqOfDecidableEq t (l.set i x) + (if l[i] = t then 1 else 0)
        = @List.count α instBEqOfDecidableEq t l + (if x = t then 1 else 0) := by
  induction l with
  | nil => intro i hi; simp at hi
  | cons a rest ih =>
    intro i hi x t
    cases i with
    | zero =>
      simp only [List.set_cons_zero, List.getElem_cons_zero, List.count_cons,
        beq_iff_eq]
      omega
    | succ n =>
      have hn : n < rest.length := Nat.lt_of_succ_lt_succ hi
      have hrec := ih n hn x t
      simp only [List.set_cons_succ, List.getElem_cons_succ, List.count_cons,
        beq_iff_eq]
      omega

/-- One `swapIdx` permutes the list. -/
theorem swapIdx_perm (l : List Tile) (i j : Nat) : (swapIdx l i j).Perm l := by
  unfold swapIdx
  split
  · rename_i a b hi hj
    obtain ⟨hi1, hia⟩ := List.get?_eq_some.mp hi
    obtain ⟨hj1, hjb⟩ := List.get?_eq_some.mp hj
    have hjlen : j < (l.set i b).length := by simpa using hj1
    rw [List.perm_iff_count]
    intro t
    have h1 := count_set_tile l i hi1 b t
    have h2 := count_set_tile (l.set i b) j hjlen a t
    have hgetj : (l.set i b)[j] = b := by
      rw [List.getElem_set]
      by_cases hij : i = j
      · simp [hij]
      · simp only [hij, if_false, ite_false]
        simpa using hjb
    rw [hgetj] at h2
    have hia2 : l[i] = a := by simpa using hia
    rw [hia2] at h1
    exact Nat.add_right_cancel (h2.trans h1)
  · exact List.Perm.refl l

/-- The in-place shuffle loop of `next_exchange` permutes the bag. -/
theorem shuffle_foldl_perm (ns : List Nat) (g1 g2 : Nat → Nat) :
    ∀ l : List Tile,
      (ns.foldl (fun b n => swapIdx b (g1 n) (g2 n)) l).Perm l := by
  induction ns with
  | nil => intro l; exact List.Perm.refl l
  | cons n rest ih =>
    intro l
    simp only [List.foldl_cons]
    exact (ih _).trans (swapIdx_perm l (g1 n) (g2 n))

/-- `getD` after setting the same index returns the new value. -/
theorem getD_set_self (hs : List Hand) :
    ∀ (i : Nat) (h : Hand), i < hs.length → (hs.set i h).getD i [] = h := by
  induction hs with
  | nil => intro i h hi; simp at hi
  | cons a rest ih =>
    intro i h hi
    cases i with
    | zero => rfl
    | succ n => exact ih n h (Nat.lt_of_succ_lt_succ hi)

/-- C9: on every successful `next_exchange` the acting player's new hand is
the kept tiles followed by tiles drained from the end of the bag as it was
before the removed tiles were appended; every drawn tile comes from the old
bag, and the new bag is a permutation of the shortened old bag with the
removed tiles appended afterwards, so a tile returned to the bag in the
operation is never drawn back into the same hand in that operation. -/
theorem exchange_non_leakage (s : NextState) (ex : Exchanges) (rng : Nat → Nat)
    (hcp : s.current_player < s.hands.length) :
    ∀ ns, s.next_exchange ex rng = .ok ns →
      ns.hands.getD s.current_player [] =
        (removeExchanged s.hand ex).2 ++ s.bag.drop (s.bag.length - ex.length)
      ∧ (∀ t ∈ s.bag.drop (s.bag.length - ex.length), t ∈ s.bag)
      ∧ ns.bag.Perm
          (s.bag.take (s.bag.length - ex.length) ++ (removeExchanged s.hand ex).1) := by
  intro ns hns
  unfold NextState.next_exchange at hns
  split at hns
  · simp at hns
  · dsimp only at hns
    simp only [Except.ok.injEq] at hns
    subst hns
    refine ⟨?_, ?_, ?_⟩
    · dsimp only
      exact getD_set_self s.hands s.current_player _ hcp
    · intro t ht
      exact List.mem_of_mem_drop ht
    · dsimp only
      exact shuffle_foldl_perm _ _ _ _

/-- Witness for C9 at a concrete successful exchange. -/
theorem exchange_non_leakage_witness :
    sampleExchState.current_player < sampleExchState.hands.length ∧
    (∀ ns, sampleExchState.next_exchange [0] sampleRng = .ok ns →
      ns.hands.getD sampleExchState.current_player [] =
        (removeExchanged sampleExchState.hand [0]).2 ++
          sampleExchState.bag.drop (sampleExchState.bag.length - List.length [0])
      ∧ (∀ t ∈ sampleExchState.bag.drop (sampleExchState.bag.length - List.length [0]),
          t ∈ sampleExchState.bag)
      ∧ ns.bag.Perm
          (sampleExchState.bag.take (sampleExchState.bag.length - List.length [0]) ++
            (removeExchanged sampleExchState.hand [0]).1)) :=
  ⟨by decide, exchange_non_leakage sampleExchState [0] sampleRng (by decide)⟩


/-- Membership in the integer interval list. -/
theorem mem_intRange (lo hi v : Int) : v ∈ intRange lo hi ↔ lo ≤ v ∧ v ≤ hi := by
  unfold intRange
  simp only [List.mem_map, List.mem_range, Int.ofNat_eq_natCast]
  constructor
  · rintro ⟨n, hn, rfl⟩
    omega
  · rintro ⟨h1, h2⟩
    exact ⟨(v - lo).toNat, by omega, by omega⟩

/-- C8 (amended): whatever start coordinate the source selects — it minimises
the `f32`-rounded square-root distance from the origin, which is the nearest
candidate only up to `f32` rounding, so it can be a farther coordinate when
distinct distances collapse in `f32` (see `distanceSq`) — the hole scan
expands outward from that start in the two directions independently; the
points taken upward are capped at `(limit + 1) / 2` and the points taken
downward at `(limit + limit % 2) / 2`, both the rounded-up half, so the caps
sum to `limit + limit % 2` — exactly `limit` when `limit` is even (as the
configured `HOLES_LIMIT = 100` is), one more when `limit` is odd; with the
limit set to 0 no holes are ever reported. -/
theorem hole_scan_caps (limit : Nat) (occupied : Int → Bool) (mn mid mx : Int) :
    (∀ v ∈ holePointsIncreasing limit occupied mid mx,
        mid < v ∧ v ≤ mx ∧ occupied v = false)
    ∧ (holePointsIncreasing limit occupied mid mx).length ≤ (limit + 1) / 2
    ∧ (∀ v ∈ holePointsDecreasing limit occupied mn mid,
        mn ≤ v ∧ v < mid ∧ occupied v = false)
    ∧ (holePointsDecreasing limit occupied mn mid).length ≤ (limit + limit % 2) / 2
    ∧ (limit + 1) / 2 = (limit + limit % 2) / 2
    ∧ (limit + 1) / 2 + (limit + limit % 2) / 2 = limit + limit % 2
    ∧ (∀ (occB : Coordinate → Bool) (bounds : Int × Int × Int × Int) (m : Coordinate),
        find_holes 0 occB bounds m = none ∨ find_holes 0 occB bounds m = some ∅) := by
  refine ⟨?_, ?_, ?_, ?_, by omega, by omega, ?_⟩
  · intro v hv
    have hv1 := List.mem_of_mem_take hv
    rw [List.mem_filter] at hv1
    obtain ⟨hrange, hocc⟩ := hv1
    rw [mem_intRange] at hrange
    simp only [Bool.not_eq_eq_eq_not, Bool.not_true] at hocc
    exact ⟨by omega, by omega, hocc⟩
  · exact List.length_take_le _ _
  · intro v hv
    have hv1 := List.mem_of_mem_take hv
    rw [List.mem_filter] at hv1
    obtain ⟨hrange, hocc⟩ := hv1
    rw [List.mem_reverse, mem_intRange] at hrange
    simp only [Bool.not_eq_eq_eq_not, Bool.not_true] at hocc
    exact ⟨by omega, by omega, hocc⟩
  · exact List.length_take_le _ _
  · intro occB bounds m
    obtain ⟨bmnx, bmny, bmxx, bmxy⟩ := bounds
    obtain ⟨m1, m2⟩ := m
    unfold find_holes
    dsimp only
    by_cases h1 : bmnx = bmxx
    · rw [if_pos h1]
      right
      simp [holePointsIncreasing, holePointsDecreasing, batchIncreasingRanges,
        batchDecreasingRanges]
    · rw [if_neg h1]
      by_cases h2 : bmny = bmxy
      · rw [if_pos h2]
        right
        simp [holePointsIncreasing, holePointsDecreasing, batchIncreasingRanges,
        batchDecreasingRanges]
      · rw [if_neg h2]
        left
        rfl

/-- Witness for C8 at concrete inputs. -/
theorem hole_scan_caps_witness :
    (∀ v ∈ holePointsIncreasing 3 (fun y => sampleHoleOccupied (0, y)) 0 2,
        0 < v ∧ v ≤ 2 ∧ sampleHoleOccupied (0, v) = false)
    ∧ (holePointsIncreasing 3 (fun y => sampleHoleOccupied (0, y)) 0 2).length ≤ (3 + 1) / 2
    ∧ (∀ v ∈ holePointsDecreasing 3 (fun y => sampleHoleOccupied (0, y)) (-2) 0,
        (-2 : Int) ≤ v ∧ v < 0 ∧ sampleHoleOccupied (0, v) = false)
    ∧ (holePointsDecreasing 3 (fun y => sampleHoleOccupied (0, y)) (-2) 0).length
        ≤ (3 + 3 % 2) / 2
    ∧ (3 + 1) / 2 = (3 + 3 % 2) / 2
    ∧ (3 + 1) / 2 + (3 + 3 % 2) / 2 = 3 + 3 % 2
    ∧ (∀ (occB : Coordinate → Bool) (bounds : Int × Int × Int × Int) (m : Coordinate),
        find_holes 0 occB bounds m = none ∨ find_holes 0 occB bounds m = some ∅) :=
  hole_scan_caps 3 (fun y => sampleHoleOccupied (0, y)) (-2) 0 2

/-- Counterexample to C8 as stated: with the hole-report limit set to the odd
value 1 both direction caps round up to 1, so the scan around `(0, 0)` reports
the two single-point holes `(0, 1)` and `(0, -1)` — two missing points, not
one. -/
theorem hole_scan_caps_counterexample :
    (holePointsIncreasing 1 (fun y => sampleHoleOccupied (0, y)) 0 2).length +
        (holePointsDecreasing 1 (fun y => sampleHoleOccupied (0, y)) (-2) 0).length = 2 ∧
    find_holes 1 sampleHoleOccupied (0, -2, 0, 2) (0, 0) =
      some {(((0 : Int), (1 : Int)), ((0 : Int), (1 : Int))),
        (((0 : Int), (-1 : Int)), ((0 : Int), (-1 : Int)))} ∧
    ¬(2 ≤ 1) :=
  ⟨by decide, by decide, by decide⟩


/-- 4-adjacency of coordinates is symmetric. -/
theorem mem_adjacent_symm {c a : Coordinate} (h : a ∈ adjacent_coordinates c) :
    c ∈ adjacent_coordinates a := by
  obtain ⟨x, y⟩ := c
  obtain ⟨u, v⟩ := a
  simp only [adjacent_coordinates, List.mem_cons, List.not_mem_nil, or_false,
    Prod.mk.injEq] at h ⊢
  omega

/-- The neighbour scan reports no promotion exactly when no neighbour is on
the board or already connected. -/
theorem scanAdjacent_false_iff (bks : Coordinate → Bool)
    (cand connected : Finset Coordinate) :
    ∀ l : List Coordinate,
      (scanAdjacent bks cand connected l).2 = false ↔
        ∀ a ∈ l, bks a = false ∧ a ∉ connected := by
  intro l
  induction l with
  | nil => simp [scanAdjacent]
  | cons a rest ih =>
    unfold scanAdjacent
    split
    · rename_i h1
      simp only [List.mem_cons]
      constructor
      · intro h; simp at h
      · intro hall
        obtain ⟨hb, hc⟩ := hall a (Or.inl rfl)
        rcases h1 with h | h
        · rw [hb] at h; cases h
        · exact absurd h hc
    · rename_i h1
      push_neg at h1
      obtain ⟨hb, hc⟩ := h1
      have hb2 : bks a = false := by simpa using hb
      split
      · rename_i h2
        dsimp only
        rw [ih]
        simp only [List.mem_cons]
        constructor
        · intro hall b hmem
          rcases hmem with rfl | hmem
          · exact ⟨hb2, hc⟩
          · exact hall b hmem
        · intro hall b hmem
          exact hall b (Or.inr hmem)
      · rw [ih]
        simp only [List.mem_cons]
        constructor
        · intro hall b hmem
          rcases hmem with rfl | hmem
          · exact ⟨hb2, hc⟩
          · exact hall b hmem
        · intro hall b hmem
          exact hall b (Or.inr hmem)

/-- A reported promotion comes from a neighbour on the board or already
connected. -/
theorem scanAdjacent_true_exists (bks : Coordinate → Bool)
    (cand connected : Finset Coordinate) (l : List Coordinate)
    (h : (scanAdjacent bks cand connected l).2 = true) :
    ∃ a ∈ l, bks a = true ∨ a ∈ connected := by
  by_contra hcon
  push_neg at hcon
  have hfalse : (scanAdjacent bks cand connected l).2 = false := by
    rw [scanAdjacent_false_iff]
    intro a ha
    have := hcon a ha
    exact ⟨by simpa using this.1, this.2⟩
  rw [h] at hfalse
  cases hfalse

/-- A neighbour on the board or already connected forces a promotion. -/
theorem scanAdjacent_true_of_mem (bks : Coordinate → Bool)
    (cand connected : Finset Coordinate) (l : List Coordinate) (a : Coordinate)
    (ha : a ∈ l) (h : bks a = true ∨ a ∈ connected) :
    (scanAdjacent bks cand connected l).2 = true := by
  by_contra hcon
  have hfalse : (scanAdjacent bks cand connected l).2 = false := by
    simpa using hcon
  obtain ⟨hb, hc⟩ := (scanAdjacent_false_iff bks cand connected l).mp hfalse a ha
  rcases h with h | h
  · rw [h] at hb; cases hb
  · exact hc h

/-- Every push made by the neighbour scan is a scanned candidate. -/
theorem scanAdjacent_pushes_mem (bks : Coordinate → Bool)
    (cand connected : Finset Coordinate) :
    ∀ l : List Coordinate, ∀ x ∈ (scanAdjacent bks cand connected l).1,
      x ∈ l ∧ x ∈ cand := by
  intro l
  induction l with
  | nil => simp [scanAdjacent]
  | cons a rest ih =>
    unfold scanAdjacent
    split
    · intro x hx; simp at hx
    · split
      · rename_i h2
        intro x hx
        rcases List.mem_cons.mp hx with rfl | hx
        · exact ⟨List.mem_cons_self x rest, h2⟩
        · obtain ⟨hl, hcand⟩ := ih x hx
          exact ⟨List.mem_cons_of_mem a hl, hcand⟩
      · intro x hx
        obtain ⟨hl, hcand⟩ := ih x hx
        exact ⟨List.mem_cons_of_mem a hl, hcand⟩

/-- The neighbour scan pushes at most one coordinate per neighbour. -/
theorem scanAdjacent_pushes_len (bks : Coordinate → Bool)
    (cand connected : Finset Coordinate) :
    ∀ l : List Coordinate, (scanAdjacent bks cand connected l).1.length ≤ l.length := by
  intro l
  induction l with
  | nil => simp [scanAdjacent]
  | cons a rest ih =>
    unfold scanAdjacent
    split
    · simp
    · split
      · simpa using Nat.succ_le_succ ih
      · simp only [List.length_cons]
        omega

/-- When the scan reports no promotion, every candidate neighbour was
pushed. -/
theorem scanAdjacent_false_pushes_complete (bks : Coordinate → Bool)
    (cand connected : Finset Coordinate) :
    ∀ l : List Coordinate, (scanAdjacent bks cand connected l).2 = false →
      ∀ a ∈ l, a ∈ cand → a ∈ (scanAdjacent bks cand connected l).1 := by
  intro l
  induction l with
  | nil => intro _ a ha; simp at ha
  | cons b rest ih =>
    unfold scanAdjacent
    split
    · intro h; simp at h
    · split
      · rename_i h2
        intro hfalse a ha hcand
        rcases List.mem_cons.mp ha with rfl | ha
        · exact List.mem_cons_self a _
        · exact List.mem_cons_of_mem b (ih hfalse a ha hcand)
      · rename_i h2
        intro hfalse a ha hcand
        rcases List.mem_cons.mp ha with rfl | ha
        · exact absurd hcand h2
        · exact ih hfalse a ha hcand

/-- The search loop never removes anything from the connected set. -/
theorem dfs_conn_mono (bks : Coordinate → Bool) (cand : Finset Coordinate) :
    ∀ (fuel : Nat) (stack : List Coordinate) (visited connected : Finset Coordinate),
      ∀ x ∈ connected, x ∈ dfs_loop bks cand fuel stack visited connected := by
  intro fuel
  induction fuel with
  | zero => intro stack visited connected x hx; exact hx
  | succ fuel ih =>
    intro stack visited connected x hx
    match stack with
    | [] => exact hx
    | c :: rest =>
      simp only [dfs_loop]
      split
      · exact ih rest visited connected x hx
      · split
        · exact ih _ _ _ x (Finset.mem_union_left _ hx)
        · exact ih _ _ _ x hx


/-- A hop chain can be reversed. -/
theorem linked_symm (cand : Finset Coordinate) {x y : Coordinate}
    (h : Linked cand x y) : Linked cand y x := by
  induction h with
  | refl => exact Relation.ReflTransGen.refl
  | tail hxb hbc ih =>
    obtain ⟨h1, h2, h3⟩ := hbc
    exact Relation.ReflTransGen.trans
      (Relation.ReflTransGen.single ⟨h2, h1, mem_adjacent_symm h3⟩) ih

/-- A connected coordinate is a candidate. -/
theorem spec_mem_cand {bks : Coordinate → Bool} {cand : Finset Coordinate}
    {c : Coordinate} (h : SpecConnected bks cand c) : c ∈ cand := by
  cases h with
  | direct hc _ _ => exact hc
  | step hc _ _ => exact hc

/-- Connectivity propagates backward along a hop chain. -/
theorem linked_spec {bks : Coordinate → Bool} {cand : Finset Coordinate}
    {x y : Coordinate} (h : Linked cand x y)
    (hy : SpecConnected bks cand y) : SpecConnected bks cand x := by
  induction h with
  | refl => exact hy
  | tail hxb hbc ih =>
    obtain ⟨h1, h2, h3⟩ := hbc
    exact ih (SpecConnected.step h1 h3 hy)

/-- No coordinate of a set whose members have no board neighbour and all of
whose candidate neighbours stay in the set is connected. -/
theorem closed_not_spec {bks : Coordinate → Bool} {cand : Finset Coordinate}
    (W : Finset Coordinate)
    (hW : ∀ x ∈ W, ∀ a ∈ adjacent_coordinates x,
      bks a = false ∧ (a ∈ cand → a ∈ W)) :
    ∀ c, SpecConnected bks cand c → c ∈ W → False := by
  intro c hspec
  induction hspec with
  | direct hc ha hb =>
    rename_i c0 a0
    intro hcW
    have := (hW c0 hcW a0 ha).1
    rw [hb] at this
    cases this
  | step hc ha hconn ih =>
    rename_i c0 a0
    intro hcW
    exact ih ((hW c0 hcW a0 ha).2 (spec_mem_cand hconn))


/-- The search loop dichotomy: a run that never promotes returns the connected
set unchanged and encloses its stack and visited coordinates in a set with no
board neighbour that is closed under candidate adjacency; a run that promotes
puts every already visited coordinate into the result. -/
theorem dfs_no_promo_closure (bks : Coordinate → Bool) (cand : Finset Coordinate) :
    ∀ (fuel : Nat) (stack : List Coordinate) (visited connected : Finset Coordinate),
      dfsMeasure cand stack visited < fuel →
      (∀ x ∈ stack, x ∈ cand) →
      (∀ x ∈ visited, x ∈ cand) →
      (∀ x ∈ visited, ∀ a ∈ adjacent_coordinates x,
        bks a = false ∧ (a ∈ cand → a ∈ visited ∨ a ∈ stack)) →
      (dfs_loop bks cand fuel stack visited connected = connected ∧
        ∃ W : Finset Coordinate, (∀ x ∈ visited, x ∈ W) ∧ (∀ x ∈ stack, x ∈ W) ∧
          (∀ x ∈ W, x ∈ cand) ∧
          ∀ x ∈ W, ∀ a ∈ adjacent_coordinates x,
            bks a = false ∧ (a ∈ cand → a ∈ W))
      ∨ (∀ x ∈ visited, x ∈ dfs_loop bks cand fuel stack visited connected) := by
  intro fuel
  induction fuel with
  | zero =>
    intro stack visited connected hfuel h1 h2 h3
    exact absurd hfuel (Nat.not_lt_zero _)
  | succ fuel ih =>
    intro stack visited connected hfuel h1 h2 h3
    match stack with
    | [] =>
      left
      refine ⟨rfl, visited, fun x hx => hx, by simp, h2, ?_⟩
      intro x hx a ha
      have hxa := h3 x hx a ha
      refine ⟨hxa.1, fun hcd => ?_⟩
      rcases hxa.2 hcd with h | h
      · exact h
      · simp at h
    | c :: rest =>
      by_cases hc : c ∈ visited
      · simp only [dfs_loop, if_pos hc]
        have hsub : cand ∪ rest.toFinset ∪ visited ⊆
            cand ∪ (c :: rest).toFinset ∪ visited := by
          intro y hy
          simp only [Finset.mem_union, List.mem_toFinset, List.mem_cons] at hy ⊢
          tauto
        have hcard := Finset.card_le_card hsub
        have hfuel2 : dfsMeasure cand rest visited < fuel := by
          simp only [dfsMeasure, List.length_cons] at hfuel ⊢
          omega
        have h3b : ∀ x ∈ visited, ∀ a ∈ adjacent_coordinates x,
            bks a = false ∧ (a ∈ cand → a ∈ visited ∨ a ∈ rest) := by
          intro x hx a ha
          have hxa := h3 x hx a ha
          refine ⟨hxa.1, fun hcd => ?_⟩
          rcases hxa.2 hcd with h | h
          · exact Or.inl h
          · rcases List.mem_cons.mp h with rfl | h
            · exact Or.inl hc
            · exact Or.inr h
        rcases ih rest visited connected hfuel2
            (fun x hx => h1 x (List.mem_cons_of_mem c hx)) h2 h3b with
          ⟨hR, W, hWv, hWs, hWc, hWcl⟩ | hvR
        · left
          refine ⟨hR, W, hWv, ?_, hWc, hWcl⟩
          intro x hx
          rcases List.mem_cons.mp hx with rfl | hx
          · exact hWv x hc
          · exact hWs x hx
        · right
          exact hvR
      · simp only [dfs_loop, if_neg hc]
        by_cases hscan :
          (scanAdjacent bks cand connected (adjacent_coordinates c)).2 = true
        · rw [if_pos hscan]
          right
          intro x hx
          exact dfs_conn_mono bks cand fuel _ _ _ x
            (Finset.mem_union_right _ (Finset.mem_insert_of_mem hx))
        · rw [if_neg hscan]
          have hfalse :
              (scanAdjacent bks cand connected (adjacent_coordinates c)).2 = false := by
            simpa using hscan
          have hccand : c ∈ cand := h1 c (List.mem_cons_self c rest)
          have hpmem := scanAdjacent_pushes_mem bks cand connected (adjacent_coordinates c)
          have hplen := scanAdjacent_pushes_len bks cand connected (adjacent_coordinates c)
          have hlen4 : (adjacent_coordinates c).length = 4 := rfl
          rw [hlen4] at hplen
          have hcomplete := scanAdjacent_false_pushes_complete bks cand connected
            (adjacent_coordinates c) hfalse
          have hscaniff := (scanAdjacent_false_iff bks cand connected
            (adjacent_coordinates c)).mp hfalse
          have hsub : cand ∪
              ((scanAdjacent bks cand connected (adjacent_coordinates c)).1.reverse
                ++ rest).toFinset ∪ insert c visited ⊆
              cand ∪ (c :: rest).toFinset ∪ visited := by
            intro y hy
            simp only [Finset.mem_union, List.mem_toFinset, List.mem_append,
              List.mem_reverse, List.mem_cons, Finset.mem_insert] at hy ⊢
            rcases hy with (hy | hy | hy) | hy | hy
            · exact Or.inl (Or.inl hy)
            · exact Or.inl (Or.inl (hpmem y hy).2)
            · exact Or.inl (Or.inr (Or.inr hy))
            · exact Or.inl (Or.inl (hy ▸ hccand))
            · exact Or.inr hy
          have hcard := Finset.card_le_card hsub
          have hvsub : insert c visited ⊆ cand ∪
              ((scanAdjacent bks cand connected (adjacent_coordinates c)).1.reverse
                ++ rest).toFinset ∪ insert c visited := by
            intro y hy
            exact Finset.mem_union_right _ hy
          have hvcard := Finset.card_le_card hvsub
          have hinsert : (insert c visited).card = visited.card + 1 :=
            Finset.card_insert_of_not_mem hc
          have hfuel2 : dfsMeasure cand
              ((scanAdjacent bks cand connected (adjacent_coordinates c)).1.reverse
                ++ rest) (insert c visited) < fuel := by
            simp only [dfsMeasure, List.length_cons, List.length_append,
              List.length_reverse] at hfuel ⊢
            omega
          have h1b : ∀ x ∈
              (scanAdjacent bks cand connected (adjacent_coordinates c)).1.reverse
                ++ rest, x ∈ cand := by
            intro x hx
            rcases List.mem_append.mp hx with hx | hx
            · exact (hpmem x (List.mem_reverse.mp hx)).2
            · exact h1 x (List.mem_cons_of_mem c hx)
          have h2b : ∀ x ∈ insert c visited, x ∈ cand := by
            intro x hx
            rcases Finset.mem_insert.mp hx with rfl | hx
            · exact hccand
            · exact h2 x hx
          have h3b : ∀ x ∈ insert c visited, ∀ a ∈ adjacent_coordinates x,
              bks a = false ∧ (a ∈ cand → a ∈ insert c visited ∨
                a ∈ (scanAdjacent bks cand connected (adjacent_coordinates c)).1.reverse
                  ++ rest) := by
            intro x hx a ha
            rcases Finset.mem_insert.mp hx with rfl | hx
            · refine ⟨(hscaniff a ha).1, fun hcd => Or.inr ?_⟩
              exact List.mem_append.mpr
                (Or.inl (List.mem_reverse.mpr (hcomplete a ha hcd)))
            · have hxa := h3 x hx a ha
              refine ⟨hxa.1, fun hcd => ?_⟩
              rcases hxa.2 hcd with h | h
              · exact Or.inl (Finset.mem_insert_of_mem h)
              · rcases List.mem_cons.mp h with rfl | h
                · exact Or.inl (Finset.mem_insert_self a visited)
                · exact Or.inr (List.mem_append.mpr (Or.inr h))
          rcases ih _ _ _ hfuel2 h1b h2b h3b with ⟨hR, W, hWv, hWs, hWc, hWcl⟩ | hvR
          · left
            refine ⟨hR, W, fun x hx => hWv x (Finset.mem_insert_of_mem hx), ?_,
              hWc, hWcl⟩
            intro x hx
            rcases List.mem_cons.mp hx with rfl | hx
            · exact hWv x (Finset.mem_insert_self x visited)
            · exact hWs x (List.mem_append.mpr (Or.inr hx))
          · right
            intro x hx
            exact hvR x (Finset.mem_insert_of_mem hx)


/-- Everything the search loop adds to the connected set is connected in the
sense of the specification. -/
theorem dfs_sound (bks : Coordinate → Bool) (cand : Finset Coordinate) :
    ∀ (fuel : Nat) (stack : List Coordinate) (visited connected : Finset Coordinate),
      (∀ x ∈ connected, SpecConnected bks cand x) →
      (∀ x ∈ stack, x ∈ cand) →
      (∀ x ∈ visited, x ∈ cand) →
      (∀ x ∈ visited, ∀ y ∈ visited, Linked cand x y) →
      (∀ x ∈ stack, visited = ∅ ∨ x ∈ visited ∨
        ∃ u ∈ visited, x ∈ adjacent_coordinates u) →
      (visited = ∅ → stack.length ≤ 1) →
      ∀ x ∈ dfs_loop bks cand fuel stack visited connected,
        SpecConnected bks cand x := by
  intro fuel
  induction fuel with
  | zero =>
    intro stack visited connected hconn _ _ _ _ _ x hx
    exact hconn x hx
  | succ fuel ih =>
    intro stack visited connected hconn h1 h2 hlink hslink hinit
    match stack with
    | [] => exact fun x hx => hconn x hx
    | c :: rest =>
      by_cases hc : c ∈ visited
      · simp only [dfs_loop, if_pos hc]
        exact ih rest visited connected hconn
          (fun x hx => h1 x (List.mem_cons_of_mem c hx)) h2 hlink
          (fun x hx => hslink x (List.mem_cons_of_mem c hx))
          (by intro hemp; rw [hemp] at hc; simp at hc)
      · simp only [dfs_loop, if_neg hc]
        have hccand : c ∈ cand := h1 c (List.mem_cons_self c rest)
        have hpmem := scanAdjacent_pushes_mem bks cand connected (adjacent_coordinates c)
        have hcvis : ∀ v ∈ visited, Linked cand c v := by
          intro v hv
          rcases hslink c (List.mem_cons_self c rest) with hemp | hcv | ⟨u, hu, hadj⟩
          · rw [hemp] at hv; simp at hv
          · exact absurd hcv hc
          · exact Relation.ReflTransGen.trans
              (Relation.ReflTransGen.single ⟨hccand, h2 u hu, mem_adjacent_symm hadj⟩)
              (hlink u hu v hv)
        have hlinkb : ∀ x ∈ insert c visited, ∀ y ∈ insert c visited,
            Linked cand x y := by
          intro x hx y hy
          have hx2 := Finset.mem_insert.mp hx
          have hy2 := Finset.mem_insert.mp hy
          rcases hx2 with hx2 | hx2
          · rcases hy2 with hy2 | hy2
            · rw [hx2, hy2]
              exact Relation.ReflTransGen.refl
            · rw [hx2]
              exact hcvis y hy2
          · rcases hy2 with hy2 | hy2
            · rw [hy2]
              exact linked_symm cand (hcvis x hx2)
            · exact hlink x hx2 y hy2
        have h1b : ∀ x ∈
            (scanAdjacent bks cand connected (adjacent_coordinates c)).1.reverse
              ++ rest, x ∈ cand := by
          intro x hx
          rcases List.mem_append.mp hx with hx | hx
          · exact (hpmem x (List.mem_reverse.mp hx)).2
          · exact h1 x (List.mem_cons_of_mem c hx)
        have h2b : ∀ x ∈ insert c visited, x ∈ cand := by
          intro x hx
          rcases Finset.mem_insert.mp hx with rfl | hx
          · exact hccand
          · exact h2 x hx
        have hslinkb : ∀ x ∈
            (scanAdjacent bks cand connected (adjacent_coordinates c)).1.reverse
              ++ rest, insert c visited = ∅ ∨ x ∈ insert c visited ∨
            ∃ u ∈ insert c visited, x ∈ adjacent_coordinates u := by
          intro x hx
          rcases List.mem_append.mp hx with hx | hx
          · exact Or.inr (Or.inr ⟨c, Finset.mem_insert_self c visited,
              (hpmem x (List.mem_reverse.mp hx)).1⟩)
          · rcases hslink x (List.mem_cons_of_mem c hx) with hemp | hxv | ⟨u, hu, hadj⟩
            · have hlen := hinit hemp
              simp only [List.length_cons] at hlen
              have hrest : rest = [] := List.length_eq_zero.mp (by omega)
              rw [hrest] at hx
              simp at hx
            · exact Or.inr (Or.inl (Finset.mem_insert_of_mem hxv))
            · exact Or.inr (Or.inr ⟨u, Finset.mem_insert_of_mem hu, hadj⟩)
        have hinitb : insert c visited = ∅ →
            ((scanAdjacent bks cand connected (adjacent_coordinates c)).1.reverse
              ++ rest).length ≤ 1 := by
          intro h
          exact absurd h (by simp)
        by_cases hscan :
          (scanAdjacent bks cand connected (adjacent_coordinates c)).2 = true
        · rw [if_pos hscan]
          obtain ⟨a, ha, hba⟩ :=
            scanAdjacent_true_exists bks cand connected _ hscan
          have hspecc : SpecConnected bks cand c := by
            rcases hba with hb | hcn
            · exact SpecConnected.direct hccand ha hb
            · exact SpecConnected.step hccand ha (hconn a hcn)
          have hconnb : ∀ x ∈ connected ∪ insert c visited,
              SpecConnected bks cand x := by
            intro x hx
            rcases Finset.mem_union.mp hx with hx | hx
            · exact hconn x hx
            · rcases Finset.mem_insert.mp hx with rfl | hx
              · exact hspecc
              · exact linked_spec (linked_symm cand (hcvis x hx)) hspecc
          exact ih _ _ _ hconnb h1b h2b hlinkb hslinkb hinitb
        · rw [if_neg hscan]
          exact ih _ _ _ hconn h1b h2b hlinkb hslinkb hinitb


/-- A connected start coordinate always ends in the result of its own
search. -/
theorem dfs_start_complete (bks : Coordinate → Bool) (cand : Finset Coordinate)
    (connected : Finset Coordinate) (c0 : Coordinate) (hc0 : c0 ∈ cand)
    (hspec : SpecConnected bks cand c0) :
    c0 ∈ dfs_loop bks cand (5 * (cand.card + 1) + 1) [c0] ∅ connected := by
  simp only [dfs_loop]
  rw [if_neg (Finset.not_mem_empty c0)]
  by_cases hscan :
    (scanAdjacent bks cand connected (adjacent_coordinates c0)).2 = true
  · rw [if_pos hscan]
    exact dfs_conn_mono bks cand _ _ _ _ c0
      (Finset.mem_union_right _ (Finset.mem_insert_self c0 ∅))
  · rw [if_neg hscan]
    have hfalse :
        (scanAdjacent bks cand connected (adjacent_coordinates c0)).2 = false := by
      simpa using hscan
    have hpmem := scanAdjacent_pushes_mem bks cand connected (adjacent_coordinates c0)
    have hplen := scanAdjacent_pushes_len bks cand connected (adjacent_coordinates c0)
    have hlen4 : (adjacent_coordinates c0).length = 4 := rfl
    rw [hlen4] at hplen
    have hcomplete := scanAdjacent_false_pushes_complete bks cand connected
      (adjacent_coordinates c0) hfalse
    have hscaniff := (scanAdjacent_false_iff bks cand connected
      (adjacent_coordinates c0)).mp hfalse
    have hsub : cand ∪
        ((scanAdjacent bks cand connected (adjacent_coordinates c0)).1.reverse
          ++ ([] : List Coordinate)).toFinset ∪ insert c0 ∅ ⊆ cand := by
      intro y hy
      simp only [Finset.mem_union, List.mem_toFinset, List.mem_append,
        List.mem_reverse, List.not_mem_nil, or_false, Finset.mem_insert,
        Finset.not_mem_empty] at hy
      rcases hy with (hy | hy) | hy
      · exact hy
      · exact (hpmem y hy).2
      · exact hy ▸ hc0
    have hcard := Finset.card_le_card hsub
    have hone : (insert c0 (∅ : Finset Coordinate)).card = 1 := by simp
    have hfuel : dfsMeasure cand
        ((scanAdjacent bks cand connected (adjacent_coordinates c0)).1.reverse ++ [])
        (insert c0 ∅) < 5 * (cand.card + 1) := by
      simp only [dfsMeasure, List.length_append, List.length_reverse,
        List.length_nil, hone]
      omega
    have h1b : ∀ x ∈
        (scanAdjacent bks cand connected (adjacent_coordinates c0)).1.reverse
          ++ ([] : List Coordinate), x ∈ cand := by
      intro x hx
      rcases List.mem_append.mp hx with hx | hx
      · exact (hpmem x (List.mem_reverse.mp hx)).2
      · simp at hx
    have h2b : ∀ x ∈ insert c0 (∅ : Finset Coordinate), x ∈ cand := by
      intro x hx
      have hx2 : x = c0 := by simpa using hx
      exact hx2 ▸ hc0
    have h3b : ∀ x ∈ insert c0 (∅ : Finset Coordinate),
        ∀ a ∈ adjacent_coordinates x,
        bks a = false ∧ (a ∈ cand → a ∈ insert c0 (∅ : Finset Coordinate) ∨
          a ∈ (scanAdjacent bks cand connected (adjacent_coordinates c0)).1.reverse
            ++ ([] : List Coordinate)) := by
      intro x hx a ha
      have hx2 : x = c0 := by simpa using hx
      subst hx2
      refine ⟨(hscaniff a ha).1, fun hcd => Or.inr ?_⟩
      exact List.mem_append.mpr (Or.inl (List.mem_reverse.mpr (hcomplete a ha hcd)))
    rcases dfs_no_promo_closure bks cand (5 * (cand.card + 1)) _ _ connected hfuel
        h1b h2b h3b with ⟨hR, W, hWv, hWs, hWc, hWcl⟩ | hvR
    · exact (closed_not_spec W hWcl c0 hspec
        (hWv c0 (Finset.mem_insert_self c0 ∅))).elim
    · exact hvR c0 (Finset.mem_insert_self c0 ∅)

/-- The outer search fold never removes anything from the connected set. -/
theorem dfs_fold_mono (bks : Coordinate → Bool) (cand : Finset Coordinate) :
    ∀ (L : List Coordinate) (conn : Finset Coordinate), ∀ x ∈ conn,
      x ∈ L.foldl (fun conn c => if c ∈ conn then conn
        else dfs_loop bks cand (5 * (cand.card + 1) + 1) [c] ∅ conn) conn := by
  intro L
  induction L with
  | nil => intro conn x hx; exact hx
  | cons c rest ih =>
    intro conn x hx
    simp only [List.foldl_cons]
    apply ih
    by_cases hcc : c ∈ conn
    · rw [if_pos hcc]
      exact hx
    · rw [if_neg hcc]
      exact dfs_conn_mono bks cand _ _ _ _ x hx

/-- Everything the outer search fold collects is connected in the sense of
the specification. -/
theorem dfs_fold_sound (bks : Coordinate → Bool) (cand : Finset Coordinate) :
    ∀ (L : List Coordinate) (conn : Finset Coordinate),
      (∀ c ∈ L, c ∈ cand) → (∀ x ∈ conn, SpecConnected bks cand x) →
      ∀ x ∈ L.foldl (fun conn c => if c ∈ conn then conn
        else dfs_loop bks cand (5 * (cand.card + 1) + 1) [c] ∅ conn) conn,
        SpecConnected bks cand x := by
  intro L
  induction L with
  | nil => intro conn _ hconn x hx; exact hconn x hx
  | cons c rest ih =>
    intro conn hL hconn
    simp only [List.foldl_cons]
    apply ih _ (fun d hd => hL d (List.mem_cons_of_mem c hd))
    by_cases hcc : c ∈ conn
    · rw [if_pos hcc]
      exact hconn
    · rw [if_neg hcc]
      exact dfs_sound bks cand _ _ _ _ hconn
        (by intro x hx; have hx2 : x = c := by simpa using hx
            exact hx2 ▸ hL c (List.mem_cons_self c rest))
        (by intro x hx; exact absurd hx (Finset.not_mem_empty x))
        (by intro x hx; exact absurd hx (Finset.not_mem_empty x))
        (by intro x hx; exact Or.inl rfl)
        (by intro h; simp)

/-- Every connected candidate ends in the connected set of the outer search
fold. -/
theorem dfs_fold_complete (bks : Coordinate → Bool) (cand : Finset Coordinate) :
    ∀ (L : List Coordinate) (conn : Finset Coordinate),
      (∀ c ∈ L, c ∈ cand) →
      ∀ c0 ∈ L, SpecConnected bks cand c0 →
        c0 ∈ L.foldl (fun conn c => if c ∈ conn then conn
          else dfs_loop bks cand (5 * (cand.card + 1) + 1) [c] ∅ conn) conn := by
  intro L
  induction L with
  | nil => intro conn _ c0 hc0; simp at hc0
  | cons c rest ih =>
    intro conn hL c0 hc0 hspec
    simp only [List.foldl_cons]
    rcases List.mem_cons.mp hc0 with rfl | hc0m
    · apply dfs_fold_mono
      by_cases hcc : c0 ∈ conn
      · rw [if_pos hcc]
        exact hcc
      · rw [if_neg hcc]
        exact dfs_start_complete bks cand conn c0
          (hL c0 (List.mem_cons_self c0 rest)) hspec
    · exact ih _ (fun d hd => hL d (List.mem_cons_of_mem c hd)) c0 hc0m hspec


/-- C7: `partition_connected` splits the candidate plays into exactly the
plays at a coordinate that is 4-adjacent to a board tile or chained to such a
coordinate through 4-adjacent candidate coordinates, and the remaining plays;
the two parts are disjoint and together they are a permutation of the
original mapping. -/
theorem partition_connected_correct (s : NextState) (p : Plays) :
    (∀ e, e ∈ (s.partition_connected p).1 ↔
      e ∈ p ∧ SpecConnected (boardContains s.board) (p.map Prod.snd).toFinset e.2)
    ∧ (∀ e, e ∈ (s.partition_connected p).2 ↔
      e ∈ p ∧ ¬SpecConnected (boardContains s.board) (p.map Prod.snd).toFinset e.2)
    ∧ (∀ e, ¬(e ∈ (s.partition_connected p).1 ∧ e ∈ (s.partition_connected p).2))
    ∧ ((s.partition_connected p).1 ++ (s.partition_connected p).2).Perm p := by
  have hsound := dfs_fold_sound (boardContains s.board) (p.map Prod.snd).toFinset
    (p.map Prod.snd) ∅ (fun c hc => List.mem_toFinset.mpr hc)
    (fun x hx => absurd hx (Finset.not_mem_empty x))
  have hcomplete := dfs_fold_complete (boardContains s.board)
    (p.map Prod.snd).toFinset (p.map Prod.snd) ∅
    (fun c hc => List.mem_toFinset.mpr hc)
  have hpart : s.partition_connected p =
      (p.filter (fun e => decide (e.2 ∈ (p.map Prod.snd).foldl
        (fun conn c => if c ∈ conn then conn
          else dfs_loop (boardContains s.board) (p.map Prod.snd).toFinset
            (5 * ((p.map Prod.snd).toFinset.card + 1) + 1) [c] ∅ conn) ∅)),
      p.filter (fun e => !decide (e.2 ∈ (p.map Prod.snd).foldl
        (fun conn c => if c ∈ conn then conn
          else dfs_loop (boardContains s.board) (p.map Prod.snd).toFinset
            (5 * ((p.map Prod.snd).toFinset.card + 1) + 1) [c] ∅ conn) ∅))) := by
    unfold NextState.partition_connected
    exact List.partition_eq_filter_filter _ _
  have hiff : ∀ e, e ∈ p → ((e.2 ∈ (p.map Prod.snd).foldl
      (fun conn c => if c ∈ conn then conn
        else dfs_loop (boardContains s.board) (p.map Prod.snd).toFinset
          (5 * ((p.map Prod.snd).toFinset.card + 1) + 1) [c] ∅ conn) ∅) ↔
      SpecConnected (boardContains s.board) (p.map Prod.snd).toFinset e.2) := by
    intro e he
    constructor
    · exact fun h => hsound e.2 h
    · exact fun h => hcomplete e.2 (List.mem_map_of_mem Prod.snd he) h
  refine ⟨?_, ?_, ?_, ?_⟩
  · intro e
    rw [hpart]
    simp only [List.mem_filter, decide_eq_true_eq]
    constructor
    · rintro ⟨he, hC⟩
      exact ⟨he, (hiff e he).mp hC⟩
    · rintro ⟨he, hs⟩
      exact ⟨he, (hiff e he).mpr hs⟩
  · intro e
    rw [hpart]
    simp only [List.mem_filter, Bool.not_eq_eq_eq_not, Bool.not_true,
      decide_eq_false_iff_not]
    constructor
    · rintro ⟨he, hC⟩
      exact ⟨he, fun hs => hC ((hiff e he).mpr hs)⟩
    · rintro ⟨he, hs⟩
      exact ⟨he, fun hC => hs ((hiff e he).mp hC)⟩
  · intro e he
    obtain ⟨h1, h2⟩ := he
    rw [hpart] at h1 h2
    simp only [List.mem_filter, decide_eq_true_eq, Bool.not_eq_eq_eq_not,
      Bool.not_true, decide_eq_false_iff_not] at h1 h2
    exact h2.2 h1.2
  · rw [hpart]
    exact List.filter_append_perm _ p

/-- Witness for C7 at concrete inputs. -/
theorem partition_connected_correct_witness :
    (∀ e, e ∈ (sampleNext.partition_connected samplePlaysAdj).1 ↔
      e ∈ samplePlaysAdj ∧ SpecConnected (boardContains sampleNext.board)
        (samplePlaysAdj.map Prod.snd).toFinset e.2)
    ∧ (∀ e, e ∈ (sampleNext.partition_connected samplePlaysAdj).2 ↔
      e ∈ samplePlaysAdj ∧ ¬SpecConnected (boardContains sampleNext.board)
        (samplePlaysAdj.map Prod.snd).toFinset e.2)
    ∧ (∀ e, ¬(e ∈ (sampleNext.partition_connected samplePlaysAdj).1 ∧
      e ∈ (sampleNext.partition_connected samplePlaysAdj).2))
    ∧ ((sampleNext.partition_connected samplePlaysAdj).1 ++
      (sampleNext.partition_connected samplePlaysAdj).2).Perm samplePlaysAdj :=
  partition_connected_correct sampleNext samplePlaysAdj
